import Mathlib

/-!
Verification development for the TEM claiming web application
(region-claiming flood-fill engine).

The front-end keeps an immutable base raster (RGBA bytes, row-major) and
two same-sized overlay canvases (saved and pending/temp).  We embed the
pixel buffers as natural numbers in base 256: byte `i` of a buffer `buf`
is bits `8*i .. 8*i+7`, exactly the `i`-th entry of the JS
`Uint8ClampedArray`.  A fully transparent buffer is `0`.

The definitions below are translated from the source:
  - `isBaseWhiteXY`, `findNearestWhitePixel`, `floodFillOverlay`,
    `addPendingClaim`, `confirmPendingClaims`, the repaint gate of
    `reloadSavedClaims` and the background poll from the main front-end
    variant (src/unnamed/part_001);
  - `isBaseWhiteXY2` from the second front-end variant
    (src/unnamed/part_002), whose claimable predicate differs;
  - the claim-store operations from the server (bulk insert with
    autoincremented ids, bulk delete by id).

Display-only state (the transient `overlayComposites` canvases, debug
seed markers, loading indicators and console logging) is not modelled:
no claim refers to it.  JS `Math.floor`/`Math.round` applied to the
already-integral coordinates handled here are the identity, so seed
coordinates enter the model as integers.  Network effects are passed in
as explicit outcome parameters (`fetchOk`, `deleteOk`, `insertOk`).
-/

namespace TEM

/-- One RGBA color as produced by `hexToRgba` (channels 0..255). -/
structure RGBA where
  r : Nat
  g : Nat
  b : Nat
  a : Nat
deriving DecidableEq, Repr

/-- Read byte `i` of a buffer encoded as a base-256 natural number. -/
def getByte (buf i : Nat) : Nat := (buf >>> (8 * i)) &&& 255

/-- Write byte `i` of a buffer.  `Uint8ClampedArray` clamps stored values
to 255, hence the `min v 255`. -/
def setByte (buf i v : Nat) : Nat :=
  ((buf >>> (8 * (i + 1))) * 256 + min v 255) <<< (8 * i) + (buf &&& (1 <<< (8 * i) - 1))

/-- An RGBA image or overlay buffer: dimensions plus the byte blob
(`data[(y*width+x)*4 + c]` is channel `c` of pixel `(x, y)`). -/
structure Image where
  width : Nat
  height : Nat
  data : Nat
deriving DecidableEq, Repr

/-- Linear byte index of pixel `(x, y)`: `(y * w + x) * 4`. -/
def getIndex (w x y : Nat) : Nat := (y * w + x) * 4

/-- Claimable predicate of the main variant (src/unnamed/part_001
`isBaseWhiteXY`): in bounds and the R, G, B bytes all exactly 255.
The alpha byte is not inspected. -/
def isBaseWhiteXY (base : Image) (x y : Int) : Bool :=
  if x < 0 ∨ y < 0 ∨ (base.width : Int) ≤ x ∨ (base.height : Int) ≤ y then false
  else
    let idx := getIndex base.width x.toNat y.toNat
    getByte base.data idx == 255 && getByte base.data (idx + 1) == 255 &&
      getByte base.data (idx + 2) == 255

/-- Claimable predicate of the second variant (src/unnamed/part_002
`isBaseWhiteXY`): alpha above 200 and R, G, B all at least the tolerance
250 (`const tol = 250; return a > 200 && r >= tol && g >= tol && b >= tol`). -/
def isBaseWhiteXY2 (base : Image) (x y : Int) : Bool :=
  if x < 0 ∨ y < 0 ∨ (base.width : Int) ≤ x ∨ (base.height : Int) ≤ y then false
  else
    let idx := getIndex base.width x.toNat y.toNat
    decide (200 < getByte base.data (idx + 3)) && decide (250 ≤ getByte base.data idx) &&
      decide (250 ≤ getByte base.data (idx + 1)) && decide (250 ≤ getByte base.data (idx + 2))

/-- `isBaseWhiteXY` restricted to natural coordinates.  The flood-fill
and BFS loops only ever form non-negative in-range coordinates (as in
the source, where the walks stop at 0 and at the bounds), and on those
`whiteAt` agrees with `isBaseWhiteXY` (see `whiteAt_eq_isBaseWhiteXY`). -/
def whiteAt (base : Image) (x y : Nat) : Bool :=
  decide (x < base.width) && decide (y < base.height) &&
    (let idx := getIndex base.width x y
     getByte base.data idx == 255 && getByte base.data (idx + 1) == 255 &&
       getByte base.data (idx + 2) == 255)

/-- `pixelHasFill` from `floodFillOverlay`: alpha byte nonzero means the
overlay already holds a fill at this pixel. -/
def pixelHasFill (data idx : Nat) : Bool := getByte data (idx + 3) != 0

/-- Paint one pixel of the overlay buffer with `fillRGBA`
(`data[idx] = r; data[idx+1] = g; data[idx+2] = b; data[idx+3] = a`). -/
def paintPixel (data idx : Nat) (c : RGBA) : Nat :=
  setByte (setByte (setByte (setByte data idx c.r) (idx + 1) c.g) (idx + 2) c.b) (idx + 3) c.a

/-- The test the scanline walks repeat for a candidate pixel `(k, y)`:
white in the base, unfilled in the overlay being edited, unvisited in
this call (`isBaseWhiteXY(k,y) && !pixelHasFill(getIndex(k,y)) && !visited[y*w+k]`). -/
def scanCond (base : Image) (data visited y k : Nat) : Bool :=
  whiteAt base k y && !pixelHasFill data (getIndex base.width k y) &&
    !Nat.testBit visited (y * base.width + k)

/-- The leftward walk of the scanline fill: starting at column `x`, move
left while the left neighbour is white, unfilled and unvisited
(`while (x > 0 && isBaseWhiteXY(x-1,y) && !pixelHasFill(...) && !visited[...]) x--`). -/
def walkLeft (base : Image) (data visited y : Nat) : Nat → Nat
  | 0 => 0
  | x + 1 =>
    if scanCond base data visited y x then
      walkLeft base data visited y x
    else x + 1

/-- Mutable state of one `floodFillOverlay` call: the overlay byte buffer
being edited, the per-call visited bitmap, the running pixel count and
the running bounding box (initialised to `w, h, -1, -1` as in part_001). -/
structure FillAcc where
  data : Nat
  visited : Nat
  filledCount : Nat
  minX : Int
  minY : Int
  maxX : Int
  maxY : Int
deriving DecidableEq, Repr

/-- The rightward span fill: from column `i`, paint while in bounds,
white, unfilled and unvisited, marking visited, counting and growing the
bounding box.  Returns the final accumulator and the final `i` (so the
span's right edge `x2` is `i - 1`).  `fuel` only bounds the recursion;
`base.width - i` steps always suffice. -/
def fillSpan (base : Image) (c : RGBA) (y : Nat) : Nat → Nat → FillAcc → FillAcc × Nat
  | 0, i, a => (a, i)
  | fuel + 1, i, a =>
    if i < base.width && scanCond base a.data a.visited y i then
      fillSpan base c y fuel (i + 1)
        { data := paintPixel a.data (getIndex base.width i y) c
          visited := a.visited ||| 1 <<< (y * base.width + i)
          filledCount := a.filledCount + 1
          minX := min a.minX (i : Int)
          minY := min a.minY (y : Int)
          maxX := max a.maxX (i : Int)
          maxY := max a.maxY (y : Int) }
    else (a, i)

/-- New seeds pushed for one painted span: for each column `j` of the
span (`n` columns starting at `x`), push `(j, y-1)` if the pixel above is
white, unfilled and unvisited, then likewise `(j, y+1)` below.  The
returned list is in push order. -/
def spanChildren (base : Image) (data visited y x : Nat) : Nat → List (Nat × Nat)
  | 0 => []
  | n + 1 =>
    (if 0 < y && scanCond base data visited (y - 1) x then
      [(x, y - 1)] else []) ++
    (if y < base.height - 1 && scanCond base data visited (y + 1) x then
      [(x, y + 1)] else []) ++
    spanChildren base data visited y (x + 1) n

/-- The main loop of `floodFillOverlay` (part_001): pop a seed, skip it
if visited or not white, otherwise walk left, fill the span rightward
and push the qualifying pixels above and below the span.  The stack is a
list with its head on top; pushing conses onto the head. -/
def fillLoop (base : Image) (c : RGBA) : Nat → List (Nat × Nat) → FillAcc → FillAcc
  | 0, _, a => a
  | _ + 1, [], a => a
  | fuel + 1, (x0, y) :: rest, a =>
    if Nat.testBit a.visited (y * base.width + x0) || !whiteAt base x0 y then
      fillLoop base c fuel rest a
    else
      let x := walkLeft base a.data a.visited y x0
      match fillSpan base c y base.width x a with
      | (a2, i) =>
        fillLoop base c fuel
          ((spanChildren base a2.data a2.visited y x (i - x)).foldl (fun s p => p :: s) rest) a2

/-- Result of a `floodFillOverlay` call: the returned boolean, the
internal pixel count and bounding box, and the overlay buffer after the
call (`putImageData` only runs when something was painted, so the buffer
is returned unchanged on failure). -/
structure FillResult where
  filled : Bool
  filledCount : Nat
  minX : Int
  minY : Int
  maxX : Int
  maxY : Int
  data : Nat
deriving DecidableEq, Repr

/-- `floodFillOverlay` from src/unnamed/part_001: scanline flood fill of
the white region around the seed into the overlay buffer.  Returns
`filled = false` with the buffer untouched when the seed is out of
bounds, not white, or nothing got painted.  The fuel `2*w*h + 1` covers
every possible pop (at most two pushes per painted pixel plus the seed;
see `fillLoop_master`). -/
def floodFillOverlay (base : Image) (overlayData : Nat) (startX startY : Int) (c : RGBA) :
    FillResult :=
  let w := base.width
  let h := base.height
  if startX < 0 ∨ startY < 0 ∨ (w : Int) ≤ startX ∨ (h : Int) ≤ startY then
    ⟨false, 0, (w : Int), (h : Int), -1, -1, overlayData⟩
  else if !isBaseWhiteXY base startX startY then
    ⟨false, 0, (w : Int), (h : Int), -1, -1, overlayData⟩
  else
    let a := fillLoop base c (2 * w * h + 1) [(startX.toNat, startY.toNat)]
      ⟨overlayData, 0, 0, (w : Int), (h : Int), -1, -1⟩
    if a.filledCount = 0 then
      ⟨false, 0, a.minX, a.minY, a.maxX, a.maxY, overlayData⟩
    else
      ⟨true, a.filledCount, a.minX, a.minY, a.maxX, a.maxY, a.data⟩

/-- One BFS expansion of `findNearestWhitePixel`: visit the four
neighbours of `(px, py)` in source order (up, down, left, right), mark
the in-bounds unvisited ones and append them to the queue. -/
def bfsNeighbors (base : Image) (px py : Nat) (visited : Nat) : Nat × List (Nat × Nat) :=
  [((px : Int), (py : Int) - 1), ((px : Int), (py : Int) + 1),
   ((px : Int) - 1, (py : Int)), ((px : Int) + 1, (py : Int))].foldl
    (fun (s : Nat × List (Nat × Nat)) (q : Int × Int) =>
      if q.1 < 0 ∨ q.2 < 0 ∨ (base.width : Int) ≤ q.1 ∨ (base.height : Int) ≤ q.2 then s
      else
        let idx := q.2.toNat * base.width + q.1.toNat
        if Nat.testBit s.1 idx then s
        else (s.1 ||| 1 <<< idx, s.2 ++ [(q.1.toNat, q.2.toNat)]))
    (visited, [])

/-- The BFS loop of `findNearestWhitePixel`: pop the queue head; skip it
when its squared Euclidean distance from the start exceeds
`maxDist2 = maxRadius²` (without expanding its neighbours); return it
when white; otherwise enqueue its unvisited in-bounds neighbours. -/
def bfsLoop (base : Image) (sx sy maxDist2 : Nat) :
    Nat → Nat → List (Nat × Nat) → Option (Nat × Nat)
  | 0, _, _ => none
  | _ + 1, _, [] => none
  | fuel + 1, visited, (px, py) :: rest =>
    let dx : Int := (px : Int) - (sx : Int)
    let dy : Int := (py : Int) - (sy : Int)
    if (maxDist2 : Int) < dx * dx + dy * dy then
      bfsLoop base sx sy maxDist2 fuel visited rest
    else if whiteAt base px py then some (px, py)
    else
      match bfsNeighbors base px py visited with
      | (visited2, fresh) => bfsLoop base sx sy maxDist2 fuel visited2 (rest ++ fresh)

/-- `findNearestWhitePixel` from src/unnamed/part_001: bounded BFS from
`(sx, sy)` for the nearest white pixel, `none` when the start is out of
bounds or no white pixel lies within `maxRadius` (Euclidean). -/
def findNearestWhitePixel (base : Image) (sx sy : Int) (maxRadius : Nat) :
    Option (Nat × Nat) :=
  if sx < 0 ∨ sy < 0 ∨ (base.width : Int) ≤ sx ∨ (base.height : Int) ≤ sy then none
  else
    bfsLoop base sx.toNat sy.toNat (maxRadius * maxRadius) (base.width * base.height + 1)
      (1 <<< (sy.toNat * base.width + sx.toNat)) [(sx.toNat, sy.toNat)]

/-! Client-side claim state and the reconciliation pipeline. -/

/-- A pending claim record as built by `addPendingClaim`:
`{ imgX, imgY, date, team, color }` (no id yet). -/
structure ClaimRecord where
  imgX : Int
  imgY : Int
  date : String
  team : Option String
  color : Option String
deriving DecidableEq, Repr

/-- A claim row of the server's `claims` table (id assigned by the
store's AUTOINCREMENT on insert). -/
structure SavedClaim where
  id : Nat
  x : Int
  y : Int
  team : Option String
  color : Option String
deriving DecidableEq, Repr

/-- The client-side state the claims touch: the pending claim list and
the pending (temp) overlay buffer. -/
structure ClientState where
  pendingClaims : List ClaimRecord
  tempData : Nat
deriving DecidableEq, Repr

/-- The `'__EMPTY__'` team tag of the "Remove Claim" option. -/
def emptyTeamTag : String := "__EMPTY__"

/-- `addPendingClaim` from src/unnamed/part_001: push the claim record,
then try to flood fill the temp overlay at the click point; on failure
look for a white pixel within radius 20 and retry there once.
`fillColor` stands for `hexToRgba(color || '#cccccc', 128)`. -/
def addPendingClaim (base : Image) (st : ClientState) (imgX imgY : Int)
    (date : String) (team color : Option String) (fillColor : RGBA) : ClientState :=
  let claim : ClaimRecord := ⟨imgX, imgY, date, team, color⟩
  let pending2 := st.pendingClaims ++ [claim]
  let r := floodFillOverlay base st.tempData imgX imgY fillColor
  let r2 :=
    if r.filled then r
    else
      match findNearestWhitePixel base imgX imgY 20 with
      | some p => floodFillOverlay base r.data (p.1 : Int) (p.2 : Int) fillColor
      | none => r
  ⟨pending2, r2.data⟩

/-- The overlap test of `confirmPendingClaims`: sample the temp overlay's
alpha at the saved claim's stored seed (skipping out-of-range seeds);
`d[3] > 0` marks the claim for deletion. -/
def overlapSeedCovered (tempW tempH tempData : Nat) (c : SavedClaim) : Bool :=
  if c.x < 0 ∨ c.y < 0 ∨ (tempW : Int) ≤ c.x ∨ (tempH : Int) ≤ c.y then false
  else getByte tempData (getIndex tempW c.x.toNat c.y.toNat + 3) != 0

/-- The set of claim ids `confirmPendingClaims` marks for deletion
(JS collects them in a `Set`; membership in this list is the same). -/
def idsToDelete (existing : List SavedClaim) (tempW tempH tempData : Nat) : List Nat :=
  (existing.filter (overlapSeedCovered tempW tempH tempData)).map (fun c => c.id)

/-- Alpha of an overlay buffer sampled at an integer coordinate; out of
range samples are transparent (as `getImageData` outside the canvas). -/
def overlayAlphaAt (w h data : Nat) (x y : Int) : Nat :=
  if x < 0 ∨ y < 0 ∨ (w : Int) ≤ x ∨ (h : Int) ≤ y then 0
  else getByte data (getIndex w x.toNat y.toNat + 3)

/-- The server's `POST /claims/delete`: delete every row whose id is in
the list (`DELETE FROM claims WHERE id = ?` per id). -/
def deleteClaims (store : List SavedClaim) (ids : List Nat) : List SavedClaim :=
  store.filter (fun r => !ids.contains r.id)

/-- The server's `POST /claims`: insert the pending claims, each row
getting the next autoincremented id. -/
def insertClaims (store : List SavedClaim) (pending : List ClaimRecord) (nextId : Nat) :
    List SavedClaim :=
  store ++ (List.range pending.length).zipWith
    (fun i c => ⟨nextId + i, c.imgX, c.imgY, c.team, c.color⟩) pending

/-- `confirmPendingClaims` from src/unnamed/part_001, with the network
round-trip outcomes passed in (`fetchOk`: the pre-confirm fetch of the
existing claims, which falls back to `[]` on failure; `deleteOk`: the
best-effort bulk delete; `insertOk`: the bulk insert, whose failure
throws, so the catch leaves the client state unchanged).  On success the
pending state is reset (`resetPendingClaims`).  Returns the new client
state and the new store contents. -/
def confirmPendingClaims (st : ClientState) (tempW tempH : Nat) (store : List SavedClaim)
    (fetchOk deleteOk insertOk : Bool) (nextId : Nat) : ClientState × List SavedClaim :=
  if st.pendingClaims.isEmpty then (st, store)
  else
    let existing := if fetchOk then store else []
    let ids := idsToDelete existing tempW tempH st.tempData
    let store2 := if ids.isEmpty then store else if deleteOk then deleteClaims store ids else store
    let nonEmptyClaims := st.pendingClaims.filter (fun c => c.team ≠ some emptyTeamTag)
    if nonEmptyClaims.isEmpty then (⟨[], 0⟩, store2)
    else if insertOk then (⟨[], 0⟩, insertClaims store2 nonEmptyClaims nextId)
    else (st, store2)

/-! The background poll and the repaint gate of `reloadSavedClaims`. -/

/-- One tick of the background poll (src/unnamed/part_001, `setInterval`):
fetch the claims; when `claims.length !== lastClaimCount`, record the new
count and call `reloadSavedClaims`.  Returns the new `lastClaimCount`
and whether the reload was triggered. -/
def pollTick (lastClaimCount : Nat) (claims : List SavedClaim) : Nat × Bool :=
  if claims.length ≠ lastClaimCount then (claims.length, true) else (lastClaimCount, false)

/-- The set of ids of a fetched claim list (the JS `Set` `currentIds`). -/
def claimIdSet (claims : List SavedClaim) : Finset Nat :=
  (claims.map (fun c => c.id)).toFinset

/-- The repaint gate inside `reloadSavedClaims` (src/unnamed/part_001):
`idsChanged = currentIds.size !== renderedClaimIds.size ||
![...currentIds].every(id => renderedClaimIds.has(id))`.  The saved
overlay is cleared and repainted only when this is true. -/
def idsChanged (claims : List SavedClaim) (renderedClaimIds : Finset Nat) : Bool :=
  decide ((claimIdSet claims).card ≠ renderedClaimIds.card) ||
    !decide (claimIdSet claims ⊆ renderedClaimIds)

/-! Raster builders for the concrete scenarios. -/

/-- A 32-bit little-endian RGBA pixel word. -/
def rgbaWord (r g b a : Nat) : Nat := r + 256 * g + 65536 * b + 16777216 * a

/-- Serialize pixels `0 .. n-1` (given as 32-bit words) into a byte
blob, tail recursively. -/
def buildPixelsAux (f : Nat → Nat) : Nat → Nat → Nat
  | 0, acc => acc
  | n + 1, acc => buildPixelsAux f n (acc * 2 ^ 32 + f n % 2 ^ 32)

/-- Byte blob of an image whose pixel `i` is the 32-bit word `f i`. -/
def buildPixels (f : Nat → Nat) (n : Nat) : Nat := buildPixelsAux f n 0

/-- Pixel words of a `w×h` all-white raster with a 1-pixel black frame. -/
def framePixel (w h i : Nat) : Nat :=
  if 1 ≤ i % w ∧ i % w + 1 < w ∧ 1 ≤ i / w ∧ i / w + 1 < h then rgbaWord 255 255 255 255
  else rgbaWord 0 0 0 255

/-- A `w×h` raster, all white except a 1-pixel black frame. -/
def frameImage (w h : Nat) : Image := ⟨w, h, buildPixels (framePixel w h) (w * h)⟩

/-- The 100×100 framed raster of the flood-fill scenario. -/
def frame100 : Image := frameImage 100 100

/-- Opaque red, `hexToRgba('#ff0000', 255)`. -/
def fillRed : RGBA := ⟨255, 0, 0, 255⟩

/-- The 98×98 interior of the 100×100 framed raster, as a pixel set. -/
def interior98 : Finset (Nat × Nat) :=
  Finset.Icc 1 98 ×ˢ Finset.Icc 1 98

/-- A 2×1 all-white raster. -/
def whiteRow2 : Image := ⟨2, 1, buildPixels (fun _ => rgbaWord 255 255 255 255) 2⟩

/-- An overlay for `whiteRow2` whose pixel (1,0) has alpha 5 and whose
pixel (0,0) is transparent. -/
def overlayC2 : Nat := rgbaWord 9 9 9 5 * 2 ^ 32

/-- A fill color whose stored alpha is zero. -/
def clearColor : RGBA := ⟨10, 20, 30, 0⟩

/-- A 1×1 raster with a single opaque black pixel. -/
def blackDot : Image := ⟨1, 1, buildPixels (fun _ => rgbaWord 0 0 0 255) 1⟩

/-- A 1×1 raster whose single pixel is white but fully transparent. -/
def alphaZeroWhite : Image := ⟨1, 1, buildPixels (fun _ => rgbaWord 255 255 255 0) 1⟩

/-- 4-neighbourhood adjacency of pixels. -/
def adjacent (p q : Nat × Nat) : Prop :=
  (p.1 = q.1 ∧ (q.2 = p.2 + 1 ∨ p.2 = q.2 + 1)) ∨
    (p.2 = q.2 ∧ (q.1 = p.1 + 1 ∨ p.1 = q.1 + 1))

/-- The pixels of one painted row span: columns `i ≤ k < i2` of row `y`. -/
def spanF (i i2 y : Nat) : Finset (Nat × Nat) :=
  (Finset.Ico i i2).image (fun k => (k, y))

/-- Characterization of a `FillAcc` in terms of the set `V` of pixels
painted so far in this call (relative to the initial overlay content
`fill0`): the buffer's alpha bytes, the visited bitmap, the running
count and the running bounding box (each bound is both valid and
attained). -/
def AccInv (base : Image) (fill0 : Nat × Nat → Bool) (V : Finset (Nat × Nat))
    (a : FillAcc) : Prop :=
  (∀ p : Nat × Nat, p.1 < base.width → p.2 < base.height →
    pixelHasFill a.data (getIndex base.width p.1 p.2) = (decide (p ∈ V) || fill0 p)) ∧
  (∀ p : Nat × Nat, p.1 < base.width → p.2 < base.height →
    Nat.testBit a.visited (p.2 * base.width + p.1) = decide (p ∈ V)) ∧
  a.filledCount = V.card ∧
  (∀ p ∈ V, p.1 < base.width ∧ p.2 < base.height) ∧
  ((∀ p ∈ V, a.minX ≤ (p.1 : Int)) ∧
    ((V = ∅ ∧ a.minX = (base.width : Int)) ∨ ∃ p ∈ V, a.minX = (p.1 : Int))) ∧
  ((∀ p ∈ V, a.minY ≤ (p.2 : Int)) ∧
    ((V = ∅ ∧ a.minY = (base.height : Int)) ∨ ∃ p ∈ V, a.minY = (p.2 : Int))) ∧
  ((∀ p ∈ V, (p.1 : Int) ≤ a.maxX) ∧
    ((V = ∅ ∧ a.maxX = -1) ∨ ∃ p ∈ V, a.maxX = (p.1 : Int))) ∧
  ((∀ p ∈ V, (p.2 : Int) ≤ a.maxY) ∧
    ((V = ∅ ∧ a.maxY = -1) ∨ ∃ p ∈ V, a.maxY = (p.2 : Int)))

/-- Invariant tying the work stack to the painted set `V` and the target
component `C`: stack entries are in bounds; a white unpainted stack
entry is unfilled in the initial overlay and belongs to `C`; every white
unfilled neighbour of a painted pixel is painted or scheduled; painted
pixels belong to `C`. -/
def StackInv (base : Image) (fill0 : Nat × Nat → Bool) (C V : Finset (Nat × Nat))
    (stack : List (Nat × Nat)) : Prop :=
  (∀ p ∈ stack, p.1 < base.width ∧ p.2 < base.height) ∧
  (∀ p ∈ stack, whiteAt base p.1 p.2 = true → p ∉ V → fill0 p = false ∧ p ∈ C) ∧
  (∀ p ∈ V, ∀ q : Nat × Nat, adjacent p q → whiteAt base q.1 q.2 = true →
    fill0 q = false → q ∈ V ∨ q ∈ stack) ∧
  (∀ p ∈ V, p ∈ C)

/-! Byte-buffer arithmetic. -/

theorem getByte_eq (buf i : Nat) : getByte buf i = buf / 2 ^ (8 * i) % 256 := by
  have h255 : (255 : Nat) = 2 ^ 8 - 1 := rfl
  rw [getByte, Nat.shiftRight_eq_div_pow, h255, Nat.and_pow_two_sub_one_eq_mod]

theorem setByte_eq (buf i v : Nat) :
    setByte buf i v =
      (buf / 2 ^ (8 * (i + 1)) * 256 + min v 255) * 2 ^ (8 * i) + buf % 2 ^ (8 * i) := by
  have h1 : (1 : Nat) <<< (8 * i) = 2 ^ (8 * i) := by
    rw [Nat.shiftLeft_eq, one_mul]
  rw [setByte, Nat.shiftRight_eq_div_pow, Nat.shiftLeft_eq, h1,
    Nat.and_pow_two_sub_one_eq_mod]

theorem getByte_lt (buf i : Nat) : getByte buf i < 256 := by
  rw [getByte_eq]; exact Nat.mod_lt _ (by norm_num)

theorem getByte_setByte_self (buf i v : Nat) :
    getByte (setByte buf i v) i = min v 255 := by
  have hP : (0 : Nat) < 2 ^ (8 * i) := Nat.two_pow_pos _
  have hm : min v 255 < 256 := by
    have := Nat.min_le_right v 255; omega
  rw [getByte_eq, setByte_eq,
    mul_comm (buf / 2 ^ (8 * (i + 1)) * 256 + min v 255) (2 ^ (8 * i)),
    Nat.mul_add_div hP, Nat.div_eq_of_lt (Nat.mod_lt _ hP), Nat.add_zero,
    mul_comm (buf / 2 ^ (8 * (i + 1))) 256, Nat.mul_add_mod, Nat.mod_eq_of_lt hm]

theorem getByte_setByte_of_lt (buf i v j : Nat) (h : j < i) :
    getByte (setByte buf i v) j = getByte buf j := by
  have hQ : (0 : Nat) < 2 ^ (8 * j) := Nat.two_pow_pos _
  have hsplit : (2 : Nat) ^ (8 * i) = 2 ^ (8 * j) * 2 ^ (8 * (i - j)) := by
    rw [← pow_add]; congr 1; omega
  have hdvd : (256 : Nat) ∣ 2 ^ (8 * (i - j)) := by
    have h8 : (256 : Nat) = 2 ^ 8 := by norm_num
    rw [h8]; exact pow_dvd_pow 2 (by omega)
  obtain ⟨t, ht⟩ := hdvd
  rw [getByte_eq, getByte_eq, setByte_eq, hsplit]
  have h1 : (buf / 2 ^ (8 * (i + 1)) * 256 + min v 255) * (2 ^ (8 * j) * 2 ^ (8 * (i - j)))
      = 2 ^ (8 * j) * ((buf / 2 ^ (8 * (i + 1)) * 256 + min v 255) * 2 ^ (8 * (i - j))) := by
    ring
  rw [h1, Nat.mul_add_div hQ, Nat.mod_mul_right_div_self, ht]
  have h2 : (buf / 2 ^ (8 * (i + 1)) * 256 + min v 255) * (256 * t)
      = 256 * ((buf / 2 ^ (8 * (i + 1)) * 256 + min v 255) * t) := by ring
  rw [h2, Nat.mul_add_mod]
  exact Nat.mod_mod_of_dvd _ ⟨t, rfl⟩

theorem getByte_setByte_of_gt (buf i v j : Nat) (h : i < j) :
    getByte (setByte buf i v) j = getByte buf j := by
  have hP : (0 : Nat) < 2 ^ (8 * i) := Nat.two_pow_pos _
  have hP1 : (0 : Nat) < 2 ^ (8 * (i + 1)) := Nat.two_pow_pos _
  have hsplit : (2 : Nat) ^ (8 * j) = 2 ^ (8 * (i + 1)) * 2 ^ (8 * (j - i - 1)) := by
    rw [← pow_add]; congr 1; omega
  have hPP : (2 : Nat) ^ (8 * (i + 1)) = 2 ^ (8 * i) * 256 := by
    have h8 : 8 * (i + 1) = 8 * i + 8 := by omega
    rw [h8, pow_add]; norm_num
  have hr : buf % 2 ^ (8 * i) < 2 ^ (8 * i) := Nat.mod_lt _ hP
  have hmle : min v 255 * 2 ^ (8 * i) ≤ 255 * 2 ^ (8 * i) :=
    Nat.mul_le_mul_right _ (Nat.min_le_right v 255)
  have hs : min v 255 * 2 ^ (8 * i) + buf % 2 ^ (8 * i) < 2 ^ (8 * (i + 1)) := by
    rw [hPP]
    have hPx : (0 : Nat) < 2 ^ (8 * i) := hP
    nlinarith [hmle, hr]
  have hX : (buf / 2 ^ (8 * (i + 1)) * 256 + min v 255) * 2 ^ (8 * i) + buf % 2 ^ (8 * i)
      = 2 ^ (8 * (i + 1)) * (buf / 2 ^ (8 * (i + 1)))
        + (min v 255 * 2 ^ (8 * i) + buf % 2 ^ (8 * i)) := by
    rw [hPP]; ring
  rw [getByte_eq, getByte_eq, setByte_eq, hsplit, ← Nat.div_div_eq_div_mul,
    ← Nat.div_div_eq_div_mul, hX, Nat.mul_add_div hP1, Nat.div_eq_of_lt hs, Nat.add_zero]

theorem getByte_setByte_other (buf i v j : Nat) (h : i ≠ j) :
    getByte (setByte buf i v) j = getByte buf j := by
  rcases Nat.lt_or_ge i j with hlt | hge
  · exact getByte_setByte_of_gt buf i v j hlt
  · exact getByte_setByte_of_lt buf i v j (by omega)

theorem getByte_zero (i : Nat) : getByte 0 i = 0 := by
  rw [getByte_eq, Nat.zero_div, Nat.zero_mod]

/-! `paintPixel` reads. -/

theorem paintPixel_alpha (data idx : Nat) (c : RGBA) :
    getByte (paintPixel data idx c) (idx + 3) = min c.a 255 :=
  getByte_setByte_self _ _ _

theorem paintPixel_getByte_other (data idx : Nat) (c : RGBA) (k : Nat)
    (h0 : k ≠ idx) (h1 : k ≠ idx + 1) (h2 : k ≠ idx + 2) (h3 : k ≠ idx + 3) :
    getByte (paintPixel data idx c) k = getByte data k := by
  rw [paintPixel, getByte_setByte_other _ _ _ _ (fun he => h3 he.symm),
    getByte_setByte_other _ _ _ _ (fun he => h2 he.symm),
    getByte_setByte_other _ _ _ _ (fun he => h1 he.symm),
    getByte_setByte_other _ _ _ _ (fun he => h0 he.symm)]

/-- Linear pixel indices are injective on in-range columns. -/
theorem pixelIndex_inj {w x y x' y' : Nat} (hx : x < w) (hx' : x' < w)
    (he : y * w + x = y' * w + x') : x = x' ∧ y = y' := by
  have hw : 0 < w := by omega
  have e1 : (y * w + x) % w = x := by
    rw [mul_comm y w, Nat.mul_add_mod, Nat.mod_eq_of_lt hx]
  have e2 : (y' * w + x') % w = x' := by
    rw [mul_comm y' w, Nat.mul_add_mod, Nat.mod_eq_of_lt hx']
  have hx0 : x = x' := by rw [← e1, ← e2, he]
  refine ⟨hx0, ?_⟩
  have hmul : y * w = y' * w := by omega
  exact Nat.eq_of_mul_eq_mul_right hw hmul

/-- Painting one pixel does not change any other pixel's alpha byte. -/
theorem paintPixel_alpha_other (data : Nat) (w x y x' y' : Nat) (c : RGBA)
    (hne : ¬(x = x' ∧ y = y')) (hx : x < w) (hx' : x' < w) :
    getByte (paintPixel data (getIndex w x y) c) (getIndex w x' y' + 3)
      = getByte data (getIndex w x' y' + 3) := by
  have hpix : y * w + x ≠ y' * w + x' := fun he => hne (pixelIndex_inj hx hx' he)
  apply paintPixel_getByte_other
  all_goals (rw [getIndex, getIndex]; omega)

/-! Visited-bitmap reads. -/

theorem testBit_setBit (v k n : Nat) :
    Nat.testBit (v ||| 1 <<< k) n = (Nat.testBit v n || decide (k = n)) := by
  have h1 : (1 : Nat) <<< k = 2 ^ k := by rw [Nat.shiftLeft_eq, one_mul]
  rw [Nat.testBit_or, h1, Nat.testBit_two_pow]

theorem testBit_zero_bit (n : Nat) : Nat.testBit 0 n = false := Nat.zero_testBit n

/-! The two claimable predicates agree on what the loops query. -/

theorem whiteAt_eq_isBaseWhiteXY (base : Image) (x y : Nat) :
    whiteAt base x y = isBaseWhiteXY base (x : Int) (y : Int) := by
  by_cases hx : x < base.width
  · by_cases hy : y < base.height
    · have hcond : ¬((x : Int) < 0 ∨ (y : Int) < 0 ∨ (base.width : Int) ≤ (x : Int) ∨
          (base.height : Int) ≤ (y : Int)) := by
        omega
      rw [whiteAt, isBaseWhiteXY, if_neg hcond]
      simp [hx, hy, Int.toNat_ofNat]
    · have hcond : (x : Int) < 0 ∨ (y : Int) < 0 ∨ (base.width : Int) ≤ (x : Int) ∨
          (base.height : Int) ≤ (y : Int) := by
        omega
      rw [whiteAt, isBaseWhiteXY, if_pos hcond]
      simp [hy]
  · have hcond : (x : Int) < 0 ∨ (y : Int) < 0 ∨ (base.width : Int) ≤ (x : Int) ∨
        (base.height : Int) ≤ (y : Int) := by
      omega
    rw [whiteAt, isBaseWhiteXY, if_pos hcond]
    simp [hx]

theorem whiteAt_width (base : Image) (x y : Nat) (h : whiteAt base x y = true) :
    x < base.width ∧ y < base.height := by
  rw [whiteAt] at h
  simp only [Bool.and_eq_true, decide_eq_true_eq] at h
  exact ⟨h.1.1, h.1.2⟩

/-! Bytes of serialized rasters. -/

theorem buildPixelsAux_eq (f : Nat → Nat) :
    ∀ n acc, buildPixelsAux f n acc = acc * 2 ^ (32 * n) + buildPixelsAux f n 0 := by
  intro n
  induction n with
  | zero => intro acc; simp [buildPixelsAux]
  | succ m ih =>
    intro acc
    rw [buildPixelsAux, buildPixelsAux, ih (acc * 2 ^ 32 + f m % 2 ^ 32),
      ih (0 * 2 ^ 32 + f m % 2 ^ 32)]
    have h32 : 32 * (m + 1) = 32 + 32 * m := by omega
    rw [h32, pow_add]
    ring

theorem buildPixels_succ (f : Nat → Nat) (n : Nat) :
    buildPixels f (n + 1) = f n % 2 ^ 32 * 2 ^ (32 * n) + buildPixels f n := by
  rw [buildPixels, buildPixels, buildPixelsAux, buildPixelsAux_eq]
  ring_nf

theorem buildPixels_lt (f : Nat → Nat) : ∀ n, buildPixels f n < 2 ^ (32 * n) := by
  intro n
  induction n with
  | zero => simp [buildPixels, buildPixelsAux]
  | succ m ih =>
    rw [buildPixels_succ]
    have hf : f m % 2 ^ 32 < 2 ^ 32 := Nat.mod_lt _ (by norm_num)
    have h32 : 32 * (m + 1) = 32 + 32 * m := by omega
    rw [h32, pow_add]
    have h1 : f m % 2 ^ 32 * 2 ^ (32 * m) ≤ (2 ^ 32 - 1) * 2 ^ (32 * m) :=
      Nat.mul_le_mul_right _ (by omega)
    have h2 : (0 : Nat) < 2 ^ (32 * m) := Nat.two_pow_pos _
    nlinarith [h1, h2, ih]

/-- Byte `j` of pixel `q` of a serialized raster is byte `j` of the
pixel word `f q`, for `q < n` and `j < 4`. -/
theorem getByte_buildPixels (f : Nat → Nat) (n q j : Nat) (hq : q < n) (hj : j < 4) :
    getByte (buildPixels f n) (4 * q + j) = getByte (f q % 2 ^ 32) j := by
  induction n with
  | zero => omega
  | succ m ih =>
    rcases Nat.lt_or_ge q m with hlt | hge
    · rw [buildPixels_succ, getByte_eq, getByte_eq]
      have hsplit : f m % 2 ^ 32 * 2 ^ (32 * m)
          = 2 ^ (8 * (4 * q + j)) * (f m % 2 ^ 32 * 2 ^ (32 * m - 8 * (4 * q + j))) := by
        rw [mul_comm (2 ^ (8 * (4 * q + j)))]
        rw [mul_assoc, ← pow_add]
        congr 2
        omega
      have hdvd : (256 : Nat) ∣ 2 ^ (32 * m - 8 * (4 * q + j)) := by
        have h8 : (256 : Nat) = 2 ^ 8 := by norm_num
        rw [h8]; exact pow_dvd_pow 2 (by omega)
      obtain ⟨t, ht⟩ := hdvd
      rw [hsplit, Nat.add_comm, Nat.add_mul_div_left _ _ (Nat.two_pow_pos _), ht]
      have h2 : f m % 2 ^ 32 * (256 * t) = 256 * (f m % 2 ^ 32 * t) := by ring
      rw [h2, Nat.add_mul_mod_self_left]
      have := ih hlt
      rw [getByte_eq, getByte_eq] at this
      exact this
    · have hqm : q = m := by omega
      subst hqm
      rw [buildPixels_succ, getByte_eq, getByte_eq]
      have hsplit : 8 * (4 * q + j) = 32 * q + 8 * j := by omega
      have hlow : buildPixels f q < 2 ^ (32 * q) := buildPixels_lt f q
      have hrw : f q % 2 ^ 32 * 2 ^ (32 * q) + buildPixels f q
          = 2 ^ (32 * q) * (f q % 2 ^ 32) + buildPixels f q := by ring
      rw [hsplit, pow_add, ← Nat.div_div_eq_div_mul, hrw,
        Nat.mul_add_div (Nat.two_pow_pos _), Nat.div_eq_of_lt hlow, Nat.add_zero]

/-! Basic facts about `floodFillOverlay`'s result. -/

theorem floodFillOverlay_cases (base : Image) (o : Nat) (sx sy : Int) (c : RGBA) :
    ((floodFillOverlay base o sx sy c).filled = false ∧
      (floodFillOverlay base o sx sy c).data = o) ∨
    (floodFillOverlay base o sx sy c).filled = true := by
  rw [floodFillOverlay]
  split
  · exact Or.inl ⟨rfl, rfl⟩
  split
  · exact Or.inl ⟨rfl, rfl⟩
  dsimp only
  split
  · exact Or.inl ⟨rfl, rfl⟩
  · exact Or.inr rfl

theorem floodFillOverlay_data_of_not_filled (base : Image) (o : Nat) (sx sy : Int)
    (c : RGBA) (h : (floodFillOverlay base o sx sy c).filled = false) :
    (floodFillOverlay base o sx sy c).data = o := by
  rcases floodFillOverlay_cases base o sx sy c with ⟨_, hd⟩ | hf
  · exact hd
  · rw [hf] at h; cases h

/-! Specifications of the scanline-fill helpers. -/

theorem fillLoop_nil (base : Image) (c : RGBA) (fuel : Nat) (a : FillAcc) :
    fillLoop base c fuel [] a = a := by
  cases fuel <;> rw [fillLoop]

theorem walkLeft_le (base : Image) (data visited y : Nat) :
    ∀ x0, walkLeft base data visited y x0 ≤ x0 := by
  intro x0
  induction x0 with
  | zero => exact le_rfl
  | succ x ih =>
    rw [walkLeft]
    split
    · exact le_trans ih (by omega)
    · exact le_rfl

theorem walkLeft_run (base : Image) (data visited y : Nat) :
    ∀ x0 k, walkLeft base data visited y x0 ≤ k → k < x0 →
      scanCond base data visited y k = true := by
  intro x0
  induction x0 with
  | zero => intro k h1 h2; omega
  | succ x ih =>
    intro k h1 h2
    rw [walkLeft] at h1
    by_cases hc : scanCond base data visited y x = true
    · rw [if_pos hc] at h1
      rcases Nat.lt_or_ge k x with hk | hk
      · exact ih k h1 hk
      · have hkx : k = x := by omega
        subst hkx; exact hc
    · rw [if_neg hc] at h1
      omega

theorem walkLeft_stop (base : Image) (data visited y : Nat) (x0 : Nat) :
    walkLeft base data visited y x0 = 0 ∨
      scanCond base data visited y (walkLeft base data visited y x0 - 1) = false := by
  induction x0 with
  | zero => exact Or.inl rfl
  | succ x ih =>
    rw [walkLeft]
    by_cases hc : scanCond base data visited y x = true
    · rw [if_pos hc]; exact ih
    · rw [if_neg hc]
      refine Or.inr ?_
      rw [Bool.not_eq_true] at hc
      simpa using hc

theorem spanChildren_mem (base : Image) (data visited y : Nat) :
    ∀ n x q, q ∈ spanChildren base data visited y x n ↔
      ∃ j, x ≤ j ∧ j < x + n ∧
        ((0 < y ∧ q = (j, y - 1) ∧ scanCond base data visited (y - 1) j = true) ∨
         (y < base.height - 1 ∧ q = (j, y + 1) ∧ scanCond base data visited (y + 1) j = true)) := by
  intro n
  induction n with
  | zero =>
    intro x q
    simp only [spanChildren, List.not_mem_nil, false_iff]
    rintro ⟨j, h1, h2, _⟩
    omega
  | succ n ih =>
    intro x q
    rw [spanChildren]
    simp only [List.mem_append, ih (x + 1)]
    constructor
    · rintro ((h | h) | ⟨j, hj1, hj2, hj3⟩)
      · by_cases hcond : (decide (0 < y) && scanCond base data visited (y - 1) x) = true
        · rw [if_pos hcond] at h
          simp only [List.mem_singleton] at h
          subst h
          simp only [Bool.and_eq_true, decide_eq_true_eq] at hcond
          exact ⟨x, le_rfl, by omega, Or.inl ⟨hcond.1, rfl, hcond.2⟩⟩
        · rw [if_neg hcond] at h
          simp at h
      · by_cases hcond : (decide (y < base.height - 1) &&
            scanCond base data visited (y + 1) x) = true
        · rw [if_pos hcond] at h
          simp only [List.mem_singleton] at h
          subst h
          simp only [Bool.and_eq_true, decide_eq_true_eq] at hcond
          exact ⟨x, le_rfl, by omega, Or.inr ⟨hcond.1, rfl, hcond.2⟩⟩
        · rw [if_neg hcond] at h
          simp at h
      · exact ⟨j, by omega, by omega, hj3⟩
    · rintro ⟨j, hj1, hj2, hcase⟩
      by_cases hjx : j = x
      · subst hjx
        rcases hcase with ⟨hy0, hq, hsc⟩ | ⟨hyh, hq, hsc⟩
        · refine Or.inl (Or.inl ?_)
          rw [if_pos (by simp [hy0, hsc])]
          simp [hq]
        · refine Or.inl (Or.inr ?_)
          rw [if_pos (by simp [hyh, hsc])]
          simp [hq]
      · exact Or.inr ⟨j, by omega, by omega, hcase⟩

/-! Painted alpha never reverts within a call (for a fill color of
nonzero stored alpha). -/

theorem fillSpan_mono (base : Image) (c : RGBA) (y : Nat) (hca : min c.a 255 ≠ 0) :
    ∀ fuel i a p1 p2, p1 < base.width → p2 < base.height →
      pixelHasFill a.data (getIndex base.width p1 p2) = true →
      pixelHasFill (fillSpan base c y fuel i a).1.data (getIndex base.width p1 p2) = true := by
  intro fuel
  induction fuel with
  | zero =>
    intro i a p1 p2 _ _ h3
    rw [fillSpan]
    exact h3
  | succ fuel ih =>
    intro i a p1 p2 h1 h2 h3
    rw [fillSpan]
    by_cases hc : (decide (i < base.width) && scanCond base a.data a.visited y i) = true
    · rw [if_pos hc]
      apply ih _ _ p1 p2 h1 h2
      show pixelHasFill (paintPixel a.data (getIndex base.width i y) c)
        (getIndex base.width p1 p2) = true
      simp only [Bool.and_eq_true, decide_eq_true_eq] at hc
      have hyh : y < base.height := by
        have hw := hc.2
        rw [scanCond, Bool.and_eq_true, Bool.and_eq_true] at hw
        exact (whiteAt_width base i y hw.1.1).2
      by_cases hpe : i = p1 ∧ y = p2
      · obtain ⟨e1, e2⟩ := hpe
        subst e1; subst e2
        rw [pixelHasFill, paintPixel_alpha]
        simpa [bne_iff_ne] using hca
      · rw [pixelHasFill, paintPixel_alpha_other a.data _ i y p1 p2 c hpe hc.1 h1]
        rw [pixelHasFill] at h3
        exact h3
    · rw [if_neg hc]
      exact h3

theorem fillLoop_mono (base : Image) (c : RGBA) (hca : min c.a 255 ≠ 0) :
    ∀ fuel stack a p1 p2, p1 < base.width → p2 < base.height →
      pixelHasFill a.data (getIndex base.width p1 p2) = true →
      pixelHasFill (fillLoop base c fuel stack a).data (getIndex base.width p1 p2) = true := by
  intro fuel
  induction fuel with
  | zero =>
    intro stack a p1 p2 _ _ h3
    rw [fillLoop]
    exact h3
  | succ fuel ih =>
    intro stack a p1 p2 h1 h2 h3
    match stack with
    | [] => rw [fillLoop]; exact h3
    | (x0, y) :: rest =>
      rw [fillLoop]
      split
      · exact ih rest a p1 p2 h1 h2 h3
      · rcases hfs : fillSpan base c y base.width (walkLeft base a.data a.visited y x0) a
          with ⟨a2, i2⟩
        simp only [hfs]
        apply ih _ _ p1 p2 h1 h2
        have := fillSpan_mono base c y hca base.width
          (walkLeft base a.data a.visited y x0) a p1 p2 h1 h2 h3
        rw [hfs] at this
        exact this

/-! The scan test expressed through the painted set. -/

theorem scanCond_char (base : Image) (fill0 : Nat × Nat → Bool) (V : Finset (Nat × Nat))
    (a : FillAcc) (hd : ∀ p : Nat × Nat, p.1 < base.width → p.2 < base.height →
      pixelHasFill a.data (getIndex base.width p.1 p.2) = (decide (p ∈ V) || fill0 p))
    (hv : ∀ p : Nat × Nat, p.1 < base.width → p.2 < base.height →
      Nat.testBit a.visited (p.2 * base.width + p.1) = decide (p ∈ V))
    (y k : Nat) :
    scanCond base a.data a.visited y k =
      (whiteAt base k y && !fill0 (k, y) && !decide ((k, y) ∈ V)) := by
  by_cases hw : whiteAt base k y = true
  · obtain ⟨hk, hy⟩ := whiteAt_width base k y hw
    rw [scanCond, hd (k, y) hk hy, hv (k, y) hk hy, hw]
    cases hfv : fill0 (k, y) <;> cases hmv : decide ((k, y) ∈ V) <;> simp
  · rw [Bool.not_eq_true] at hw
    rw [scanCond, hw]
    simp

/-- Painting one fresh in-bounds pixel updates the accumulator
characterization from `V` to `insert (x, y) V`. -/
theorem AccInv_paint (base : Image) (c : RGBA) (fill0 : Nat × Nat → Bool)
    (V : Finset (Nat × Nat)) (a : FillAcc) (x y : Nat)
    (hca : min c.a 255 ≠ 0)
    (hx : x < base.width) (hy : y < base.height) (hxnv : (x, y) ∉ V)
    (hinv : AccInv base fill0 V a) :
    AccInv base fill0 (insert (x, y) V)
      { data := paintPixel a.data (getIndex base.width x y) c
        visited := a.visited ||| 1 <<< (y * base.width + x)
        filledCount := a.filledCount + 1
        minX := min a.minX (x : Int)
        minY := min a.minY (y : Int)
        maxX := max a.maxX (x : Int)
        maxY := max a.maxY (y : Int) } := by
  obtain ⟨hd, hv, hc, hb, ⟨hminX, hminXa⟩, ⟨hminY, hminYa⟩, ⟨hmaxX, hmaxXa⟩,
    ⟨hmaxY, hmaxYa⟩⟩ := hinv
  refine ⟨?_, ?_, ?_, ?_, ⟨?_, ?_⟩, ⟨?_, ?_⟩, ⟨?_, ?_⟩, ⟨?_, ?_⟩⟩
  · rintro ⟨px, py⟩ hp1 hp2
    by_cases hpe : px = x ∧ py = y
    · obtain ⟨e1, e2⟩ := hpe
      subst e1; subst e2
      show pixelHasFill (paintPixel a.data (getIndex base.width px py) c)
        (getIndex base.width px py) = _
      rw [pixelHasFill, paintPixel_alpha]
      have hne : (min c.a 255 != 0) = true := by simpa [bne_iff_ne] using hca
      rw [hne]
      simp [Finset.mem_insert]
    · show pixelHasFill (paintPixel a.data (getIndex base.width x y) c)
        (getIndex base.width px py) = _
      rw [pixelHasFill,
        paintPixel_alpha_other a.data _ x y px py c
          (fun hab => hpe ⟨hab.1.symm, hab.2.symm⟩) hx hp1]
      have := hd (px, py) hp1 hp2
      rw [pixelHasFill] at this
      rw [this]
      have hmem : ((px, py) ∈ insert (x, y) V) = ((px, py) ∈ V) := by
        simp only [Finset.mem_insert, eq_iff_iff]
        constructor
        · rintro (he | hm)
          · exact absurd (by simpa [Prod.ext_iff] using he) hpe
          · exact hm
        · exact Or.inr
      simp only [hmem]
  · rintro ⟨px, py⟩ hp1 hp2
    show Nat.testBit (a.visited ||| 1 <<< (y * base.width + x)) _ = _
    rw [testBit_setBit, hv (px, py) hp1 hp2]
    by_cases hpe : px = x ∧ py = y
    · obtain ⟨e1, e2⟩ := hpe
      subst e1; subst e2
      simp [Finset.mem_insert]
    · have hne : y * base.width + x ≠ py * base.width + px := by
        intro he
        obtain ⟨e1, e2⟩ := pixelIndex_inj hx hp1 he
        exact hpe ⟨e1.symm, e2.symm⟩
      have hmem : ((px, py) ∈ insert (x, y) V) = ((px, py) ∈ V) := by
        simp only [Finset.mem_insert, eq_iff_iff]
        constructor
        · rintro (he | hm)
          · exact absurd (by simpa [Prod.ext_iff] using he) hpe
          · exact hm
        · exact Or.inr
      simp [hne, hmem]
  · show a.filledCount + 1 = _
    rw [Finset.card_insert_of_not_mem hxnv, hc]
  · intro p hp
    rcases Finset.mem_insert.mp hp with he | hm
    · subst he; exact ⟨hx, hy⟩
    · exact hb p hm
  · intro p hp
    rcases Finset.mem_insert.mp hp with he | hm
    · subst he; exact min_le_right _ _
    · exact le_trans (min_le_left _ _) (hminX p hm)
  · rcases le_total a.minX (x : Int) with hle | hge
    · rw [show min a.minX (x : Int) = a.minX from min_eq_left hle]
      rcases hminXa with ⟨_, hmx⟩ | ⟨p, hp, hmx⟩
      · exfalso
        have hxw : (x : Int) < (base.width : Int) := by exact_mod_cast hx
        omega
      · exact Or.inr ⟨p, Finset.mem_insert_of_mem hp, hmx⟩
    · rw [show min a.minX (x : Int) = (x : Int) from min_eq_right hge]
      exact Or.inr ⟨(x, y), Finset.mem_insert_self _ _, rfl⟩
  · intro p hp
    rcases Finset.mem_insert.mp hp with he | hm
    · subst he; exact min_le_right _ _
    · exact le_trans (min_le_left _ _) (hminY p hm)
  · rcases le_total a.minY (y : Int) with hle | hge
    · rw [show min a.minY (y : Int) = a.minY from min_eq_left hle]
      rcases hminYa with ⟨_, hmy⟩ | ⟨p, hp, hmy⟩
      · exfalso
        have hyh : (y : Int) < (base.height : Int) := by exact_mod_cast hy
        omega
      · exact Or.inr ⟨p, Finset.mem_insert_of_mem hp, hmy⟩
    · rw [show min a.minY (y : Int) = (y : Int) from min_eq_right hge]
      exact Or.inr ⟨(x, y), Finset.mem_insert_self _ _, rfl⟩
  · intro p hp
    rcases Finset.mem_insert.mp hp with he | hm
    · subst he; exact le_max_right _ _
    · exact le_trans (hmaxX p hm) (le_max_left _ _)
  · rcases le_total a.maxX (x : Int) with hle | hge
    · rw [show max a.maxX (x : Int) = (x : Int) from max_eq_right hle]
      exact Or.inr ⟨(x, y), Finset.mem_insert_self _ _, rfl⟩
    · rw [show max a.maxX (x : Int) = a.maxX from max_eq_left hge]
      rcases hmaxXa with ⟨_, hmx⟩ | ⟨p, hp, hmx⟩
      · exfalso
        have : (0 : Int) ≤ (x : Int) := Int.natCast_nonneg x
        omega
      · exact Or.inr ⟨p, Finset.mem_insert_of_mem hp, hmx⟩
  · intro p hp
    rcases Finset.mem_insert.mp hp with he | hm
    · subst he; exact le_max_right _ _
    · exact le_trans (hmaxY p hm) (le_max_left _ _)
  · rcases le_total a.maxY (y : Int) with hle | hge
    · rw [show max a.maxY (y : Int) = (y : Int) from max_eq_right hle]
      exact Or.inr ⟨(x, y), Finset.mem_insert_self _ _, rfl⟩
    · rw [show max a.maxY (y : Int) = a.maxY from max_eq_left hge]
      rcases hmaxYa with ⟨_, hmy⟩ | ⟨p, hp, hmy⟩
      · exfalso
        have : (0 : Int) ≤ (y : Int) := Int.natCast_nonneg y
        omega
      · exact Or.inr ⟨p, Finset.mem_insert_of_mem hp, hmy⟩

/-- What one rightward span fill does: starting at column `i` it paints
exactly the contiguous run of white, initially-unfilled, unpainted
pixels of row `y`, stops at the first failing column `i2`, and updates
the accumulator characterization accordingly. -/
theorem fillSpan_spec (base : Image) (c : RGBA) (y : Nat) (fill0 : Nat × Nat → Bool)
    (hca : min c.a 255 ≠ 0) :
    ∀ fuel i a V, AccInv base fill0 V a → base.width ≤ i + fuel → i ≤ base.width →
      ∃ i2 a2, fillSpan base c y fuel i a = (a2, i2) ∧
        i ≤ i2 ∧ i2 ≤ base.width ∧
        AccInv base fill0 (V ∪ spanF i i2 y) a2 ∧
        (∀ k, i ≤ k → k < i2 →
          whiteAt base k y = true ∧ fill0 (k, y) = false ∧ (k, y) ∉ V) ∧
        (i2 = base.width ∨ whiteAt base i2 y = false ∨ fill0 (i2, y) = true ∨
          (i2, y) ∈ V) := by
  intro fuel
  induction fuel with
  | zero =>
    intro i a V hinv hfuel hiw
    have hie : i = base.width := by omega
    refine ⟨i, a, by rw [fillSpan], le_rfl, le_of_eq hie, ?_, ?_, Or.inl hie⟩
    · have hspan : spanF i i y = ∅ := by
        simp [spanF]
      rw [hspan, Finset.union_empty]
      exact hinv
    · intro k h1 h2; omega
  | succ fuel ih =>
    intro i a V hinv hfuel hiw0
    by_cases hcond : (decide (i < base.width) && scanCond base a.data a.visited y i) = true
    · have hcond' := hcond
      simp only [Bool.and_eq_true, decide_eq_true_eq] at hcond
      obtain ⟨hiw, hsc⟩ := hcond
      rw [scanCond_char base fill0 V a hinv.1 hinv.2.1] at hsc
      simp only [Bool.and_eq_true, Bool.not_eq_true', decide_eq_false_iff_not] at hsc
      obtain ⟨⟨hwhite, hfill0⟩, hnotmem⟩ := hsc
      have hyh : y < base.height := (whiteAt_width base i y hwhite).2
      have hinv2 := AccInv_paint base c fill0 V a i y hca hiw hyh hnotmem hinv
      obtain ⟨i2, a2, heq, hle, hle2, hinv3, hrun, hstop⟩ :=
        ih (i + 1)
          { data := paintPixel a.data (getIndex base.width i y) c
            visited := a.visited ||| 1 <<< (y * base.width + i)
            filledCount := a.filledCount + 1
            minX := min a.minX (i : Int)
            minY := min a.minY (y : Int)
            maxX := max a.maxX (i : Int)
            maxY := max a.maxY (y : Int) }
          (insert (i, y) V) hinv2 (by omega) (by omega)
      refine ⟨i2, a2, ?_, by omega, hle2, ?_, ?_, ?_⟩
      · rw [fillSpan, if_pos hcond']
        exact heq
      · have hset : insert (i, y) V ∪ spanF (i + 1) i2 y = V ∪ spanF i i2 y := by
          ext ⟨qx, qy⟩
          simp only [spanF, Finset.mem_union, Finset.mem_insert, Finset.mem_image,
            Finset.mem_Ico, Prod.mk.injEq]
          constructor
          · rintro ((⟨e1, e2⟩ | hv) | ⟨k, ⟨hk1, hk2⟩, e1, e2⟩)
            · subst e1; subst e2
              exact Or.inr ⟨qx, ⟨le_rfl, by omega⟩, rfl, rfl⟩
            · exact Or.inl hv
            · exact Or.inr ⟨k, ⟨by omega, hk2⟩, e1, e2⟩
          · rintro (hv | ⟨k, ⟨hk1, hk2⟩, e1, e2⟩)
            · exact Or.inl (Or.inr hv)
            · by_cases hki : k = i
              · subst hki
                exact Or.inl (Or.inl ⟨e1.symm, e2.symm⟩)
              · exact Or.inr ⟨k, ⟨by omega, hk2⟩, e1, e2⟩
        rw [← hset]
        exact hinv3
      · intro k h1 h2
        by_cases hki : k = i
        · subst hki
          exact ⟨hwhite, hfill0, hnotmem⟩
        · obtain ⟨hw2, hf2, hnm2⟩ := hrun k (by omega) h2
          exact ⟨hw2, hf2, fun hm => hnm2 (Finset.mem_insert_of_mem hm)⟩
      · rcases hstop with h | h | h | h
        · exact Or.inl h
        · exact Or.inr (Or.inl h)
        · exact Or.inr (Or.inr (Or.inl h))
        · rcases Finset.mem_insert.mp h with he | hm
          · exfalso
            have : i2 = i := by
              simpa [Prod.ext_iff] using he
            omega
          · exact Or.inr (Or.inr (Or.inr hm))
    · refine ⟨i, a, ?_, le_rfl, hiw0, ?_, ?_, ?_⟩
      · rw [fillSpan, if_neg hcond]
      · have hspan : spanF i i y = ∅ := by simp [spanF]
        rw [hspan, Finset.union_empty]
        exact hinv
      · intro k h1 h2; omega
      · by_cases hiw : i < base.width
        · have hsc : scanCond base a.data a.visited y i = false := by
            cases hsc0 : scanCond base a.data a.visited y i
            · rfl
            · exfalso; exact hcond (by simp [hiw, hsc0])
          rw [scanCond_char base fill0 V a hinv.1 hinv.2.1] at hsc
          cases hw : whiteAt base i y
          · exact Or.inr (Or.inl rfl)
          · cases hf : fill0 (i, y)
            · rw [hw, hf] at hsc
              simp only [Bool.not_false, Bool.and_true, Bool.true_and,
                Bool.not_eq_false', decide_eq_true_eq] at hsc
              exact Or.inr (Or.inr (Or.inr hsc))
            · exact Or.inr (Or.inr (Or.inl rfl))
        · exact Or.inl (by omega)

/-! Pushing a list of seeds onto the stack. -/

theorem foldl_cons_length (l : List (Nat × Nat)) :
    ∀ acc : List (Nat × Nat),
      (l.foldl (fun s p => p :: s) acc).length = l.length + acc.length := by
  induction l with
  | nil => intro acc; simp
  | cons p t ih =>
    intro acc
    rw [List.foldl_cons, ih (p :: acc)]
    simp
    omega

theorem foldl_cons_mem (l : List (Nat × Nat)) :
    ∀ (acc : List (Nat × Nat)) (q : Nat × Nat),
      q ∈ l.foldl (fun s p => p :: s) acc ↔ q ∈ l ∨ q ∈ acc := by
  induction l with
  | nil => intro acc q; simp
  | cons p t ih =>
    intro acc q
    rw [List.foldl_cons, ih (p :: acc)]
    simp only [List.mem_cons]
    tauto

theorem spanChildren_length (base : Image) (data visited y : Nat) :
    ∀ n x, (spanChildren base data visited y x n).length ≤ 2 * n := by
  intro n
  induction n with
  | zero => intro x; simp [spanChildren]
  | succ n ih =>
    intro x
    rw [spanChildren]
    simp only [List.length_append]
    have h1 : (if decide (0 < y) && scanCond base data visited (y - 1) x then
        [(x, y - 1)] else []).length ≤ 1 := by
      split <;> simp
    have h2 : (if decide (y < base.height - 1) && scanCond base data visited (y + 1) x then
        [(x, y + 1)] else []).length ≤ 1 := by
      split <;> simp
    have h3 := ih (x + 1)
    omega

/-! Walking membership in the target component along a white row. -/

theorem chainRight (base : Image) (fill0 : Nat × Nat → Bool) (C : Finset (Nat × Nat))
    (hCc : ∀ p ∈ C, ∀ q : Nat × Nat, adjacent p q → whiteAt base q.1 q.2 = true →
      fill0 q = false → q ∈ C) (y : Nat) :
    ∀ d a, (a, y) ∈ C →
      (∀ k, a < k → k ≤ a + d → whiteAt base k y = true ∧ fill0 (k, y) = false) →
      (a + d, y) ∈ C := by
  intro d
  induction d with
  | zero => intro a h _; exact h
  | succ d ihd =>
    intro a h hrun
    have hd : (a + d, y) ∈ C := ihd a h (fun k h1 h2 => hrun k h1 (by omega))
    have hw := hrun (a + d + 1) (by omega) (by omega)
    exact hCc (a + d, y) hd (a + d + 1, y)
      (Or.inr ⟨rfl, Or.inl rfl⟩) hw.1 hw.2

theorem chainLeft (base : Image) (fill0 : Nat × Nat → Bool) (C : Finset (Nat × Nat))
    (hCc : ∀ p ∈ C, ∀ q : Nat × Nat, adjacent p q → whiteAt base q.1 q.2 = true →
      fill0 q = false → q ∈ C) (y : Nat) :
    ∀ d a, (a + d, y) ∈ C →
      (∀ k, a ≤ k → k < a + d → whiteAt base k y = true ∧ fill0 (k, y) = false) →
      (a, y) ∈ C := by
  intro d
  induction d with
  | zero => intro a h _; exact h
  | succ d ihd =>
    intro a h hrun
    have hstep : (a + d, y) ∈ C := by
      have hw := hrun (a + d) (by omega) (by omega)
      exact hCc (a + d + 1, y) h (a + d, y)
        (Or.inr ⟨rfl, Or.inr rfl⟩) hw.1 hw.2
    exact ihd a hstep (fun k h1 h2 => hrun k h1 (by omega))

set_option maxHeartbeats 2000000 in
/-- Master correctness of the scanline fill loop: run with enough fuel
from a state characterized by the painted set `V`, the loop terminates
with an empty stack, a larger painted set `V'` containing the seed, and
both invariants intact (in particular the empty-stack `StackInv` says
the final painted set is closed under white unfilled neighbours and
contained in the target component `C`). -/
theorem fillLoop_master (base : Image) (c : RGBA) (fill0 : Nat × Nat → Bool)
    (C : Finset (Nat × Nat)) (seed : Nat × Nat)
    (hca : min c.a 255 ≠ 0)
    (hCw : ∀ p ∈ C, whiteAt base p.1 p.2 = true ∧ fill0 p = false)
    (hCc : ∀ p ∈ C, ∀ q : Nat × Nat, adjacent p q → whiteAt base q.1 q.2 = true →
      fill0 q = false → q ∈ C) :
    ∀ fuel V stack a,
      AccInv base fill0 V a →
      StackInv base fill0 C V stack →
      (seed ∈ V ∨ (V = ∅ ∧ stack = [seed] ∧ seed ∈ C)) →
      stack.length + 2 * (C \ V).card ≤ fuel →
      ∃ V', V ⊆ V' ∧ seed ∈ V' ∧
        AccInv base fill0 V' (fillLoop base c fuel stack a) ∧
        StackInv base fill0 C V' [] := by
  intro fuel
  induction fuel with
  | zero =>
    intro V stack a hacc hstk hseed hphi
    have hnil : stack = [] := List.length_eq_zero.mp (by omega)
    subst hnil
    rw [fillLoop]
    refine ⟨V, subset_rfl, ?_, hacc, hstk⟩
    rcases hseed with h | ⟨_, h2, _⟩
    · exact h
    · cases h2
  | succ fuel ih =>
    intro V stack a hacc hstk hseed hphi
    match stack, hstk, hseed, hphi with
    | [], hstk, hseed, _ =>
      rw [fillLoop]
      refine ⟨V, subset_rfl, ?_, hacc, hstk⟩
      rcases hseed with h | ⟨_, h2, _⟩
      · exact h
      · cases h2
    | (x0, y) :: rest, hstk, hseed, hphi =>
      obtain ⟨hsb, hsw, hscl, hVC⟩ := hstk
      have hbnd := hsb (x0, y) (List.mem_cons_self _ _)
      have hlen : ((x0, y) :: rest).length = rest.length + 1 := List.length_cons _ _
      rw [fillLoop]
      by_cases hskip : (Nat.testBit a.visited (y * base.width + x0) ||
          !whiteAt base x0 y) = true
      · rw [if_pos hskip]
        have hmem_or : (x0, y) ∈ V ∨ whiteAt base x0 y = false := by
          rcases Bool.or_eq_true_iff.mp hskip with h | h
          · left
            have hv := hacc.2.1 (x0, y) hbnd.1 hbnd.2
            rw [h] at hv
            exact of_decide_eq_true hv.symm
          · right
            rwa [Bool.not_eq_true'] at h
        have hseed2 : seed ∈ V := by
          rcases hseed with h | ⟨hVe, hse, hsC⟩
          · exact h
          · exfalso
            have he : (x0, y) = seed := (List.cons_eq_cons.mp hse).1
            rcases hmem_or with hm | hw
            · rw [hVe] at hm
              exact absurd hm (Finset.not_mem_empty _)
            · have hws := (hCw seed hsC).1
              rw [← he] at hws
              rw [hws] at hw
              cases hw
        have hstk2 : StackInv base fill0 C V rest := by
          refine ⟨fun p hp => hsb p (List.mem_cons_of_mem _ hp),
            fun p hp => hsw p (List.mem_cons_of_mem _ hp), ?_, hVC⟩
          intro p hp q hadj hqw hqf
          rcases hscl p hp q hadj hqw hqf with hv | hq
          · exact Or.inl hv
          · rcases List.mem_cons.mp hq with he | hr
            · subst he
              rcases hmem_or with hm | hw
              · exact Or.inl hm
              · rw [hqw] at hw
                cases hw
            · exact Or.inr hr
        exact ih V rest a hacc hstk2 (Or.inl hseed2) (by rw [hlen] at hphi; omega)
      · rw [if_neg hskip]
        have hnv : Nat.testBit a.visited (y * base.width + x0) = false := by
          cases h : Nat.testBit a.visited (y * base.width + x0)
          · rfl
          · exact absurd (by rw [h]; rfl) hskip
        have hwx : whiteAt base x0 y = true := by
          cases h : whiteAt base x0 y
          · exact absurd (by rw [h]; simp) hskip
          · rfl
        have hnotV : (x0, y) ∉ V := by
          have hv := hacc.2.1 (x0, y) hbnd.1 hbnd.2
          rw [hnv] at hv
          exact of_decide_eq_false hv.symm
        obtain ⟨hf0, hC0⟩ := hsw (x0, y) (List.mem_cons_self _ _) hwx hnotV
        have hLle : walkLeft base a.data a.visited y x0 ≤ x0 :=
          walkLeft_le base a.data a.visited y x0
        have hrunL : ∀ k, walkLeft base a.data a.visited y x0 ≤ k → k < x0 →
            whiteAt base k y = true ∧ fill0 (k, y) = false ∧ (k, y) ∉ V := by
          intro k h1 h2
          have hsc := walkLeft_run base a.data a.visited y x0 k h1 h2
          rw [scanCond_char base fill0 V a hacc.1 hacc.2.1] at hsc
          simp only [Bool.and_eq_true, Bool.not_eq_true', decide_eq_false_iff_not] at hsc
          exact ⟨hsc.1.1, hsc.1.2, hsc.2⟩
        obtain ⟨i2, a2, heq, hile, hile2, hacc2, hrun2, hstop2⟩ :=
          fillSpan_spec base c y fill0 hca base.width
            (walkLeft base a.data a.visited y x0) a V hacc (by omega) (by omega)
        simp only [heq]
        have hx0lt : x0 < i2 := by
          by_contra hcon
          push_neg at hcon
          have hw2 : whiteAt base i2 y = true ∧ fill0 (i2, y) = false ∧ (i2, y) ∉ V := by
            rcases Nat.lt_or_ge i2 x0 with hlt | hge
            · exact hrunL i2 hile hlt
            · have he : i2 = x0 := by omega
              rw [he]
              exact ⟨hwx, hf0, hnotV⟩
          rcases hstop2 with he | hwf | hff | hmm
          · have : x0 < base.width := hbnd.1
            omega
          · rw [hw2.1] at hwf
            cases hwf
          · rw [hw2.2.1] at hff
            cases hff
          · exact hw2.2.2 hmm
        have hCspan : ∀ k, walkLeft base a.data a.visited y x0 ≤ k → k < i2 →
            (k, y) ∈ C := by
          intro k hk1 hk2
          rcases Nat.le_total k x0 with hle | hge
          · have hd : k + (x0 - k) = x0 := by omega
            exact chainLeft base fill0 C hCc y (x0 - k) k (by rw [hd]; exact hC0)
              (fun j hj1 hj2 => by
                have hr := hrunL j (by omega) (by omega)
                exact ⟨hr.1, hr.2.1⟩)
          · have hd : x0 + (k - x0) = k := by omega
            have hcr := chainRight base fill0 C hCc y (k - x0) x0 hC0
              (fun j hj1 hj2 => by
                have hr := hrun2 j (by omega) (by omega)
                exact ⟨hr.1, hr.2.1⟩)
            rw [hd] at hcr
            exact hcr
        have hSmem : ∀ q : Nat × Nat,
            q ∈ spanF (walkLeft base a.data a.visited y x0) i2 y ↔
            ∃ k, walkLeft base a.data a.visited y x0 ≤ k ∧ k < i2 ∧ q = (k, y) := by
          intro q
          simp only [spanF, Finset.mem_image, Finset.mem_Ico]
          constructor
          · rintro ⟨k, ⟨h1, h2⟩, he⟩
            exact ⟨k, h1, h2, he.symm⟩
          · rintro ⟨k, h1, h2, he⟩
            exact ⟨k, ⟨h1, h2⟩, he.symm⟩
        have hseed2 : seed ∈ V ∪ spanF (walkLeft base a.data a.visited y x0) i2 y := by
          rcases hseed with h | ⟨hVe, hse, hsC⟩
          · exact Finset.mem_union_left _ h
          · have he : (x0, y) = seed := (List.cons_eq_cons.mp hse).1
            refine Finset.mem_union_right _ ?_
            rw [hSmem]
            exact ⟨x0, hLle, hx0lt, he.symm⟩
        have hsubC : ∀ q ∈ spanF (walkLeft base a.data a.visited y x0) i2 y, q ∈ C := by
          intro q hq
          obtain ⟨k, h1, h2, he⟩ := (hSmem q).mp hq
          rw [he]
          exact hCspan k h1 h2
        have hsubCV : spanF (walkLeft base a.data a.visited y x0) i2 y ⊆ C \ V := by
          intro q hq
          obtain ⟨k, h1, h2, he⟩ := (hSmem q).mp hq
          refine Finset.mem_sdiff.mpr ⟨hsubC q hq, ?_⟩
          rw [he]
          exact (hrun2 k h1 h2).2.2
        have hScard : (spanF (walkLeft base a.data a.visited y x0) i2 y).card =
            i2 - walkLeft base a.data a.visited y x0 := by
          rw [spanF, Finset.card_image_of_injective _ (fun u v hu => by
            simpa using hu), Nat.card_Ico]
        have hchild : ∀ q : Nat × Nat,
            q ∈ spanChildren base a2.data a2.visited y
              (walkLeft base a.data a.visited y x0)
              (i2 - walkLeft base a.data a.visited y x0) →
            ∃ j, walkLeft base a.data a.visited y x0 ≤ j ∧ j < i2 ∧
              ((0 < y ∧ q = (j, y - 1)) ∨ (y < base.height - 1 ∧ q = (j, y + 1))) ∧
              whiteAt base q.1 q.2 = true ∧ fill0 q = false ∧
              q ∉ V ∪ spanF (walkLeft base a.data a.visited y x0) i2 y := by
          intro q hq
          rw [spanChildren_mem] at hq
          obtain ⟨j, hj1, hj2, hcase⟩ := hq
          have hj2' : j < i2 := by omega
          rcases hcase with ⟨hy0, hqe, hsc⟩ | ⟨hyh, hqe, hsc⟩ <;>
            rw [scanCond_char base fill0
              (V ∪ spanF (walkLeft base a.data a.visited y x0) i2 y) a2
              hacc2.1 hacc2.2.1] at hsc <;>
            simp only [Bool.and_eq_true, Bool.not_eq_true',
              decide_eq_false_iff_not] at hsc
          · exact ⟨j, hj1, hj2', Or.inl ⟨hy0, hqe⟩, by rw [hqe]; exact hsc.1.1,
              by rw [hqe]; exact hsc.1.2, by rw [hqe]; exact hsc.2⟩
          · exact ⟨j, hj1, hj2', Or.inr ⟨hyh, hqe⟩, by rw [hqe]; exact hsc.1.1,
              by rw [hqe]; exact hsc.1.2, by rw [hqe]; exact hsc.2⟩
        have hstk2 : StackInv base fill0 C
            (V ∪ spanF (walkLeft base a.data a.visited y x0) i2 y)
            ((spanChildren base a2.data a2.visited y
              (walkLeft base a.data a.visited y x0)
              (i2 - walkLeft base a.data a.visited y x0)).foldl
                (fun s p => p :: s) rest) := by
          refine ⟨?_, ?_, ?_, ?_⟩
          · intro q hq
            rcases (foldl_cons_mem _ _ _).mp hq with hc | hr
            · obtain ⟨j, _, _, _, hqw, _, _⟩ := hchild q hc
              exact whiteAt_width base q.1 q.2 hqw
            · exact hsb q (List.mem_cons_of_mem _ hr)
          · intro q hq hqw hqnot
            rcases (foldl_cons_mem _ _ _).mp hq with hc | hr
            · obtain ⟨j, hj1, hj2, hjcase, hqw2, hqf, _⟩ := hchild q hc
              refine ⟨hqf, ?_⟩
              have hjC : (j, y) ∈ C := hCspan j hj1 hj2
              rcases hjcase with ⟨hy0, hqe⟩ | ⟨hyh, hqe⟩
              · refine hCc (j, y) hjC q ?_ hqw2 hqf
                rw [hqe]
                exact Or.inl ⟨rfl, Or.inr (by omega)⟩
              · refine hCc (j, y) hjC q ?_ hqw2 hqf
                rw [hqe]
                exact Or.inl ⟨rfl, Or.inl rfl⟩
            · have hqnV : q ∉ V := fun hm => hqnot (Finset.mem_union_left _ hm)
              exact hsw q (List.mem_cons_of_mem _ hr) hqw hqnV
          · rintro p hp ⟨qx, qy⟩ hadj hqw hqf
            rcases Finset.mem_union.mp hp with hpV | hpS
            · rcases hscl p hpV (qx, qy) hadj hqw hqf with hv | hq
              · exact Or.inl (Finset.mem_union_left _ hv)
              · rcases List.mem_cons.mp hq with he | hr
                · rw [he]
                  refine Or.inl (Finset.mem_union_right _ ?_)
                  rw [hSmem]
                  exact ⟨x0, hLle, hx0lt, rfl⟩
                · exact Or.inr ((foldl_cons_mem _ _ _).mpr (Or.inr hr))
            · obtain ⟨k, hk1, hk2, he⟩ := (hSmem p).mp hpS
              subst he
              by_cases hqmem :
                  (qx, qy) ∈ V ∪ spanF (walkLeft base a.data a.visited y x0) i2 y
              · exact Or.inl hqmem
              · have hqbnd := whiteAt_width base qx qy hqw
                rcases (show (k = qx ∧ (qy = y + 1 ∨ y = qy + 1)) ∨
                    (y = qy ∧ (qx = k + 1 ∨ k = qx + 1)) from hadj) with
                  ⟨he1, hor⟩ | ⟨he2, hor⟩
                · -- vertical neighbour: qx = k, qy = y ± 1
                  refine Or.inr ((foldl_cons_mem _ _ _).mpr (Or.inl ?_))
                  rw [spanChildren_mem]
                  rcases hor with hup | hdn
                  · -- qy = y + 1
                    refine ⟨qx, by omega, by omega, Or.inr ⟨by omega, by rw [hup], ?_⟩⟩
                    rw [scanCond_char base fill0
                      (V ∪ spanF (walkLeft base a.data a.visited y x0) i2 y) a2
                      hacc2.1 hacc2.2.1]
                    have h1 : whiteAt base qx (y + 1) = true := by rw [← hup]; exact hqw
                    have h2 : fill0 (qx, y + 1) = false := by rw [← hup]; exact hqf
                    have h3 : (qx, y + 1) ∉
                        V ∪ spanF (walkLeft base a.data a.visited y x0) i2 y := by
                      rw [← hup]; exact hqmem
                    rw [h1, h2]
                    simp [h3]
                  · -- y = qy + 1
                    have hqy : y - 1 = qy := by omega
                    refine ⟨qx, by omega, by omega, Or.inl ⟨by omega, by rw [hqy], ?_⟩⟩
                    rw [scanCond_char base fill0
                      (V ∪ spanF (walkLeft base a.data a.visited y x0) i2 y) a2
                      hacc2.1 hacc2.2.1, hqy, hqw, hqf]
                    simp [hqmem]
                · -- horizontal neighbour on row y: qy = y
                  exfalso
                  apply hqmem
                  rcases hor with hr1 | hr2
                  · -- qx = k + 1
                    rcases Nat.lt_or_ge (k + 1) i2 with hlt | hge
                    · refine Finset.mem_union_right _ ?_
                      rw [hSmem]
                      refine ⟨k + 1, by omega, hlt, ?_⟩
                      rw [hr1, ← he2]
                    · have hke : i2 = k + 1 := by omega
                      rcases hstop2 with heq2 | hwf | hff | hmm
                      · exact absurd hqbnd.1 (by omega)
                      · exfalso
                        have hwt : whiteAt base i2 y = true := by
                          rw [hke, ← hr1, he2]; exact hqw
                        rw [hwt] at hwf
                        cases hwf
                      · exfalso
                        have hft : fill0 (i2, y) = false := by
                          rw [hke, ← hr1, he2]; exact hqf
                        rw [hft] at hff
                        cases hff
                      · have hqe : (qx, qy) = (i2, y) := by
                          rw [hke, ← hr1, he2]
                        rw [hqe]
                        exact Finset.mem_union_left _ hmm
                  · -- k = qx + 1
                    rcases Nat.lt_or_ge qx (walkLeft base a.data a.visited y x0)
                      with hlt | hge
                    · have hkL : k = walkLeft base a.data a.visited y x0 := by omega
                      rcases walkLeft_stop base a.data a.visited y x0 with h0 | hsc
                      · omega
                      · rw [scanCond_char base fill0 V a hacc.1 hacc.2.1] at hsc
                        have hq1 : walkLeft base a.data a.visited y x0 - 1 = qx := by
                          omega
                        rw [hq1] at hsc
                        have hwv : whiteAt base qx y = true := by rw [he2]; exact hqw
                        have hfv : fill0 (qx, y) = false := by rw [he2]; exact hqf
                        rw [hwv, hfv] at hsc
                        simp only [Bool.true_and, Bool.not_false,
                          Bool.not_eq_false'] at hsc
                        have hqe : (qx, qy) = (qx, y) := by rw [he2]
                        rw [hqe]
                        exact Finset.mem_union_left _ (of_decide_eq_true hsc)
                    · refine Finset.mem_union_right _ ?_
                      rw [hSmem]
                      exact ⟨qx, hge, by omega, by rw [he2]⟩
          · intro p hp
            rcases Finset.mem_union.mp hp with hv | hs
            · exact hVC p hv
            · exact hsubC p hs
        have hphi2 : ((spanChildren base a2.data a2.visited y
            (walkLeft base a.data a.visited y x0)
            (i2 - walkLeft base a.data a.visited y x0)).foldl
              (fun s p => p :: s) rest).length +
            2 * (C \ (V ∪ spanF (walkLeft base a.data a.visited y x0) i2 y)).card ≤
            fuel := by
          rw [foldl_cons_length]
          have hcl := spanChildren_length base a2.data a2.visited y
            (i2 - walkLeft base a.data a.visited y x0)
            (walkLeft base a.data a.visited y x0)
          have hset : C \ (V ∪ spanF (walkLeft base a.data a.visited y x0) i2 y) =
              (C \ V) \ spanF (walkLeft base a.data a.visited y x0) i2 y := by
            ext q
            simp only [Finset.mem_sdiff, Finset.mem_union]
            tauto
          have hge : i2 - walkLeft base a.data a.visited y x0 ≤ (C \ V).card := by
            rw [← hScard]
            exact Finset.card_le_card hsubCV
          rw [hset, Finset.card_sdiff hsubCV, hScard]
          rw [hlen] at hphi
          omega
        obtain ⟨V', hsub, hseedV, haccV, hstkV⟩ :=
          ih (V ∪ spanF (walkLeft base a.data a.visited y x0) i2 y) _ a2 hacc2 hstk2
            (Or.inl hseed2) hphi2
        exact ⟨V', Finset.Subset.trans Finset.subset_union_left hsub, hseedV, haccV, hstkV⟩

/-! Vertical analogues of the row chains. -/

theorem chainDown (base : Image) (fill0 : Nat × Nat → Bool) (C : Finset (Nat × Nat))
    (hCc : ∀ p ∈ C, ∀ q : Nat × Nat, adjacent p q → whiteAt base q.1 q.2 = true →
      fill0 q = false → q ∈ C) (x : Nat) :
    ∀ d a, (x, a) ∈ C →
      (∀ k, a < k → k ≤ a + d → whiteAt base x k = true ∧ fill0 (x, k) = false) →
      (x, a + d) ∈ C := by
  intro d
  induction d with
  | zero => intro a h _; exact h
  | succ d ihd =>
    intro a h hrun
    have hd : (x, a + d) ∈ C := ihd a h (fun k h1 h2 => hrun k h1 (by omega))
    have hw := hrun (a + d + 1) (by omega) (by omega)
    exact hCc (x, a + d) hd (x, a + d + 1) (Or.inl ⟨rfl, Or.inl rfl⟩) hw.1 hw.2

theorem chainUp (base : Image) (fill0 : Nat × Nat → Bool) (C : Finset (Nat × Nat))
    (hCc : ∀ p ∈ C, ∀ q : Nat × Nat, adjacent p q → whiteAt base q.1 q.2 = true →
      fill0 q = false → q ∈ C) (x : Nat) :
    ∀ d a, (x, a + d) ∈ C →
      (∀ k, a ≤ k → k < a + d → whiteAt base x k = true ∧ fill0 (x, k) = false) →
      (x, a) ∈ C := by
  intro d
  induction d with
  | zero => intro a h _; exact h
  | succ d ihd =>
    intro a h hrun
    have hstep : (x, a + d) ∈ C := by
      have hw := hrun (a + d) (by omega) (by omega)
      exact hCc (x, a + d + 1) h (x, a + d) (Or.inl ⟨rfl, Or.inr rfl⟩) hw.1 hw.2
    exact ihd a hstep (fun k h1 h2 => hrun k h1 (by omega))

/-! The framed test raster. -/

theorem pixelHasFill_zero (idx : Nat) : pixelHasFill 0 idx = false := by
  rw [pixelHasFill, getByte_zero]
  rfl

theorem whiteAt_frameImage (w h x y : Nat) :
    whiteAt (frameImage w h) x y =
      decide (1 ≤ x ∧ x + 1 < w ∧ 1 ≤ y ∧ y + 1 < h) := by
  have hL : whiteAt (frameImage w h) x y =
      (decide (x < w) && decide (y < h) &&
        (getByte (frameImage w h).data (getIndex w x y) == 255 &&
         getByte (frameImage w h).data (getIndex w x y + 1) == 255 &&
         getByte (frameImage w h).data (getIndex w x y + 2) == 255)) := rfl
  by_cases hx : x < w
  · by_cases hy : y < h
    · have hw0 : 0 < w := by omega
      have hq : y * w + x < w * h := by
        calc y * w + x < y * w + w := by omega
          _ = (y + 1) * w := (Nat.succ_mul y w).symm
          _ ≤ h * w := Nat.mul_le_mul_right w (by omega)
          _ = w * h := Nat.mul_comm h w
      have hmod : (y * w + x) % w = x := by
        rw [mul_comm y w, Nat.mul_add_mod, Nat.mod_eq_of_lt hx]
      have hdiv : (y * w + x) / w = y := by
        rw [mul_comm y w, Nat.mul_add_div hw0, Nat.div_eq_of_lt hx, Nat.add_zero]
      have hidx : ∀ j : Nat, getIndex w x y + j = 4 * (y * w + x) + j := by
        intro j
        rw [getIndex, Nat.mul_comm]
      have hb0 : getByte (frameImage w h).data (getIndex w x y) =
          getByte (framePixel w h (y * w + x) % 2 ^ 32) 0 := by
        show getByte (buildPixels (framePixel w h) (w * h)) _ = _
        rw [show getIndex w x y = 4 * (y * w + x) + 0 by
          rw [getIndex, Nat.mul_comm, Nat.add_zero]]
        exact getByte_buildPixels _ _ _ _ hq (by omega)
      have hb1 : getByte (frameImage w h).data (getIndex w x y + 1) =
          getByte (framePixel w h (y * w + x) % 2 ^ 32) 1 := by
        show getByte (buildPixels (framePixel w h) (w * h)) _ = _
        rw [hidx 1]
        exact getByte_buildPixels _ _ _ _ hq (by omega)
      have hb2 : getByte (frameImage w h).data (getIndex w x y + 2) =
          getByte (framePixel w h (y * w + x) % 2 ^ 32) 2 := by
        show getByte (buildPixels (framePixel w h) (w * h)) _ = _
        rw [hidx 2]
        exact getByte_buildPixels _ _ _ _ hq (by omega)
      have hpix : framePixel w h (y * w + x) =
          if 1 ≤ x ∧ x + 1 < w ∧ 1 ≤ y ∧ y + 1 < h then rgbaWord 255 255 255 255
          else rgbaWord 0 0 0 255 := by
        rw [framePixel, hmod, hdiv]
      by_cases hint : 1 ≤ x ∧ x + 1 < w ∧ 1 ≤ y ∧ y + 1 < h
      · rw [hL, hb0, hb1, hb2, hpix, if_pos hint, decide_eq_true hx,
          decide_eq_true hy, decide_eq_true hint]
        decide
      · rw [hL, hb0, hb1, hb2, hpix, if_neg hint, decide_eq_true hx,
          decide_eq_true hy, decide_eq_false hint]
        decide
    · rw [hL, decide_eq_false hy,
        decide_eq_false (show ¬(1 ≤ x ∧ x + 1 < w ∧ 1 ≤ y ∧ y + 1 < h) by omega)]
      simp
  · rw [hL, decide_eq_false hx,
      decide_eq_false (show ¬(1 ≤ x ∧ x + 1 < w ∧ 1 ≤ y ∧ y + 1 < h) by omega)]
    simp

theorem whiteAt_frame100 (x y : Nat) :
    whiteAt frame100 x y = decide (1 ≤ x ∧ x ≤ 98 ∧ 1 ≤ y ∧ y ≤ 98) := by
  calc whiteAt frame100 x y = whiteAt (frameImage 100 100) x y := rfl
    _ = decide (1 ≤ x ∧ x + 1 < 100 ∧ 1 ≤ y ∧ y + 1 < 100) :=
        whiteAt_frameImage 100 100 x y
    _ = decide (1 ≤ x ∧ x ≤ 98 ∧ 1 ≤ y ∧ y ≤ 98) := by
        rw [decide_eq_decide]
        omega

theorem interior98_mem (p : Nat × Nat) :
    p ∈ interior98 ↔ 1 ≤ p.1 ∧ p.1 ≤ 98 ∧ 1 ≤ p.2 ∧ p.2 ≤ 98 := by
  rw [interior98, Finset.mem_product, Finset.mem_Icc, Finset.mem_Icc]
  tauto

theorem interior98_card : interior98.card = 9604 := by
  rw [interior98, Finset.card_product, Nat.card_Icc]

/-- Unfolding of a `floodFillOverlay` call whose seed passes the checks
and whose loop painted something. -/
theorem floodFillOverlay_of_painted (base : Image) (o : Nat) (sx sy : Int) (c : RGBA)
    (hin : ¬(sx < 0 ∨ sy < 0 ∨ (base.width : Int) ≤ sx ∨ (base.height : Int) ≤ sy))
    (hw : isBaseWhiteXY base sx sy = true)
    (hcount : (fillLoop base c (2 * base.width * base.height + 1) [(sx.toNat, sy.toNat)]
      ⟨o, 0, 0, (base.width : Int), (base.height : Int), -1, -1⟩).filledCount ≠ 0) :
    floodFillOverlay base o sx sy c =
      ⟨true,
        (fillLoop base c (2 * base.width * base.height + 1) [(sx.toNat, sy.toNat)]
          ⟨o, 0, 0, (base.width : Int), (base.height : Int), -1, -1⟩).filledCount,
        (fillLoop base c (2 * base.width * base.height + 1) [(sx.toNat, sy.toNat)]
          ⟨o, 0, 0, (base.width : Int), (base.height : Int), -1, -1⟩).minX,
        (fillLoop base c (2 * base.width * base.height + 1) [(sx.toNat, sy.toNat)]
          ⟨o, 0, 0, (base.width : Int), (base.height : Int), -1, -1⟩).minY,
        (fillLoop base c (2 * base.width * base.height + 1) [(sx.toNat, sy.toNat)]
          ⟨o, 0, 0, (base.width : Int), (base.height : Int), -1, -1⟩).maxX,
        (fillLoop base c (2 * base.width * base.height + 1) [(sx.toNat, sy.toNat)]
          ⟨o, 0, 0, (base.width : Int), (base.height : Int), -1, -1⟩).maxY,
        (fillLoop base c (2 * base.width * base.height + 1) [(sx.toNat, sy.toNat)]
          ⟨o, 0, 0, (base.width : Int), (base.height : Int), -1, -1⟩).data⟩ := by
  rw [floodFillOverlay, if_neg hin, if_neg (by rw [hw]; simp)]
  dsimp only
  rw [if_neg hcount]

theorem floodFillOverlay_painted_parts (base : Image) (o : Nat) (sx sy : Int)
    (c : RGBA)
    (hin : ¬(sx < 0 ∨ sy < 0 ∨ (base.width : Int) ≤ sx ∨ (base.height : Int) ≤ sy))
    (hw : isBaseWhiteXY base sx sy = true)
    (hcount : (fillLoop base c (2 * base.width * base.height + 1) [(sx.toNat, sy.toNat)]
      ⟨o, 0, 0, (base.width : Int), (base.height : Int), -1, -1⟩).filledCount ≠ 0) :
    (floodFillOverlay base o sx sy c).filled = true ∧
    (floodFillOverlay base o sx sy c).filledCount =
      (fillLoop base c (2 * base.width * base.height + 1) [(sx.toNat, sy.toNat)]
        ⟨o, 0, 0, (base.width : Int), (base.height : Int), -1, -1⟩).filledCount ∧
    (floodFillOverlay base o sx sy c).minX =
      (fillLoop base c (2 * base.width * base.height + 1) [(sx.toNat, sy.toNat)]
        ⟨o, 0, 0, (base.width : Int), (base.height : Int), -1, -1⟩).minX ∧
    (floodFillOverlay base o sx sy c).minY =
      (fillLoop base c (2 * base.width * base.height + 1) [(sx.toNat, sy.toNat)]
        ⟨o, 0, 0, (base.width : Int), (base.height : Int), -1, -1⟩).minY ∧
    (floodFillOverlay base o sx sy c).maxX =
      (fillLoop base c (2 * base.width * base.height + 1) [(sx.toNat, sy.toNat)]
        ⟨o, 0, 0, (base.width : Int), (base.height : Int), -1, -1⟩).maxX ∧
    (floodFillOverlay base o sx sy c).maxY =
      (fillLoop base c (2 * base.width * base.height + 1) [(sx.toNat, sy.toNat)]
        ⟨o, 0, 0, (base.width : Int), (base.height : Int), -1, -1⟩).maxY ∧
    (floodFillOverlay base o sx sy c).data =
      (fillLoop base c (2 * base.width * base.height + 1) [(sx.toNat, sy.toNat)]
        ⟨o, 0, 0, (base.width : Int), (base.height : Int), -1, -1⟩).data := by
  rw [floodFillOverlay, if_neg hin, if_neg (by rw [hw]; simp)]
  dsimp only
  rw [if_neg hcount]
  exact ⟨rfl, rfl, rfl, rfl, rfl, rfl, rfl⟩

set_option maxHeartbeats 1000000 in
set_option maxRecDepth 8192 in
/-- C5: on the 100×100 framed raster with a transparent overlay, the
fill at (50,50) succeeds, paints exactly the 9604 pixels of the 98×98
interior (alpha is set exactly there), with bounding box (1,1)-(98,98). -/
theorem floodFill_frame100_scenario :
    (floodFillOverlay frame100 0 50 50 fillRed).filled = true ∧
    (floodFillOverlay frame100 0 50 50 fillRed).filledCount = 9604 ∧
    (floodFillOverlay frame100 0 50 50 fillRed).minX = 1 ∧
    (floodFillOverlay frame100 0 50 50 fillRed).minY = 1 ∧
    (floodFillOverlay frame100 0 50 50 fillRed).maxX = 98 ∧
    (floodFillOverlay frame100 0 50 50 fillRed).maxY = 98 ∧
    (∀ x y : Nat, x < 100 → y < 100 →
      (pixelHasFill (floodFillOverlay frame100 0 50 50 fillRed).data
        (getIndex 100 x y) = true ↔ 1 ≤ x ∧ x ≤ 98 ∧ 1 ≤ y ∧ y ≤ 98)) := by
  have hca : min fillRed.a 255 ≠ 0 := by decide
  have hCw : ∀ p ∈ interior98, whiteAt frame100 p.1 p.2 = true ∧
      (fun _ : Nat × Nat => false) p = false := by
    intro p hp
    rw [interior98_mem] at hp
    refine ⟨?_, rfl⟩
    rw [whiteAt_frame100]
    exact decide_eq_true (by omega)
  have hCc : ∀ p ∈ interior98, ∀ q : Nat × Nat, adjacent p q →
      whiteAt frame100 q.1 q.2 = true → (fun _ : Nat × Nat => false) q = false →
      q ∈ interior98 := by
    intro p _ q _ hqw _
    rw [whiteAt_frame100] at hqw
    rw [interior98_mem]
    exact of_decide_eq_true hqw
  have hseedC : ((50 : Nat), (50 : Nat)) ∈ interior98 := by
    refine (interior98_mem _).mpr ?_
    norm_num
  have hAcc0 : AccInv frame100 (fun _ => false) ∅
      ⟨0, 0, 0, (frame100.width : Int), (frame100.height : Int), -1, -1⟩ := by
    refine ⟨?_, ?_, ?_, ?_, ⟨?_, ?_⟩, ⟨?_, ?_⟩, ⟨?_, ?_⟩, ⟨?_, ?_⟩⟩
    · intro p _ _
      show pixelHasFill 0 _ = _
      rw [pixelHasFill_zero]
      simp
    · intro p _ _
      show Nat.testBit 0 _ = _
      rw [Nat.zero_testBit]
      simp
    · simp
    · intro p hp
      exact absurd hp (Finset.not_mem_empty p)
    · intro p hp
      exact absurd hp (Finset.not_mem_empty p)
    · exact Or.inl ⟨rfl, rfl⟩
    · intro p hp
      exact absurd hp (Finset.not_mem_empty p)
    · exact Or.inl ⟨rfl, rfl⟩
    · intro p hp
      exact absurd hp (Finset.not_mem_empty p)
    · exact Or.inl ⟨rfl, rfl⟩
    · intro p hp
      exact absurd hp (Finset.not_mem_empty p)
    · exact Or.inl ⟨rfl, rfl⟩
  have hStk0 : StackInv frame100 (fun _ => false) interior98 ∅
      [((50 : Nat), (50 : Nat))] := by
    refine ⟨?_, ?_, ?_, ?_⟩
    · intro p hp
      simp only [List.mem_singleton] at hp
      subst hp
      exact ⟨by decide, by decide⟩
    · intro p hp _ _
      simp only [List.mem_singleton] at hp
      subst hp
      exact ⟨rfl, hseedC⟩
    · intro p hp
      exact absurd hp (Finset.not_mem_empty p)
    · intro p hp
      exact absurd hp (Finset.not_mem_empty p)
  have hfuel : ([((50 : Nat), (50 : Nat))] : List (Nat × Nat)).length +
      2 * (interior98 \ ∅).card ≤ 2 * frame100.width * frame100.height + 1 := by
    rw [Finset.sdiff_empty, interior98_card]
    show 1 + 2 * 9604 ≤ 2 * 100 * 100 + 1
    norm_num
  obtain ⟨V', hsub, hseedV, haccV, hstkV⟩ :=
    fillLoop_master frame100 fillRed (fun _ => false) interior98 (50, 50) hca hCw hCc
      (2 * frame100.width * frame100.height + 1) ∅
      [((50 : Nat), (50 : Nat))]
      ⟨0, 0, 0, (frame100.width : Int), (frame100.height : Int), -1, -1⟩
      hAcc0 hStk0 (Or.inr ⟨rfl, rfl, hseedC⟩) hfuel
  obtain ⟨X, hX⟩ : ∃ X : FillAcc, fillLoop frame100 fillRed
      (2 * frame100.width * frame100.height + 1) [((50 : Nat), (50 : Nat))]
      ⟨0, 0, 0, (frame100.width : Int), (frame100.height : Int), -1, -1⟩ = X := ⟨_, rfl⟩
  have hls : fillLoop frame100 fillRed (2 * frame100.width * frame100.height + 1)
      [((50 : Int).toNat, (50 : Int).toNat)]
      ⟨0, 0, 0, (frame100.width : Int), (frame100.height : Int), -1, -1⟩ = X := by
    rw [show ([((50 : Int).toNat, (50 : Int).toNat)] : List (Nat × Nat)) =
      [((50 : Nat), (50 : Nat))] from rfl]
    exact hX
  rw [hX] at haccV
  have hVcl : ∀ p ∈ V', ∀ q : Nat × Nat, adjacent p q →
      whiteAt frame100 q.1 q.2 = true → q ∈ V' := by
    intro p hp q hadj hqw
    rcases hstkV.2.2.1 p hp q hadj hqw rfl with h | h
    · exact h
    · exact absurd h (List.not_mem_nil q)
  have hVcl2 : ∀ p ∈ V', ∀ q : Nat × Nat, adjacent p q →
      whiteAt frame100 q.1 q.2 = true → (fun _ : Nat × Nat => false) q = false →
      q ∈ V' := fun p hp q hadj hqw _ => hVcl p hp q hadj hqw
  have hrev : ∀ p ∈ interior98, p ∈ V' := by
    rintro ⟨px, py⟩ hp
    rw [interior98_mem] at hp
    have h1 : 1 ≤ px := hp.1
    have h2 : px ≤ 98 := hp.2.1
    have h3 : 1 ≤ py := hp.2.2.1
    have h4 : py ≤ 98 := hp.2.2.2
    have hwhite : ∀ u v : Nat, 1 ≤ u → u ≤ 98 → 1 ≤ v → v ≤ 98 →
        whiteAt frame100 u v = true ∧ (fun _ : Nat × Nat => false) (u, v) = false := by
      intro u v hu1 hu2 hv1 hv2
      refine ⟨?_, rfl⟩
      rw [whiteAt_frame100]
      exact decide_eq_true (by omega)
    have hrow : (px, 50) ∈ V' := by
      rcases Nat.le_total 50 px with hge | hle
      · have hcr := chainRight frame100 (fun _ => false) V' hVcl2 50 (px - 50) 50 hseedV
          (fun k hk1 hk2 => hwhite k 50 (by omega) (by omega) (by omega) (by omega))
        rw [show 50 + (px - 50) = px by omega] at hcr
        exact hcr
      · have hcl := chainLeft frame100 (fun _ => false) V' hVcl2 50 (50 - px) px
          (by rw [show px + (50 - px) = 50 by omega]; exact hseedV)
          (fun k hk1 hk2 => hwhite k 50 (by omega) (by omega) (by omega) (by omega))
        exact hcl
    rcases Nat.le_total 50 py with hge | hle
    · have hcd := chainDown frame100 (fun _ => false) V' hVcl2 px (py - 50) 50 hrow
        (fun k hk1 hk2 => hwhite px k (by omega) (by omega) (by omega) (by omega))
      rw [show 50 + (py - 50) = py by omega] at hcd
      exact hcd
    · have hcu := chainUp frame100 (fun _ => false) V' hVcl2 px (50 - py) py
        (by rw [show py + (50 - py) = 50 by omega]; exact hrow)
        (fun k hk1 hk2 => hwhite px k (by omega) (by omega) (by omega) (by omega))
      exact hcu
  have hVeq : V' = interior98 :=
    Finset.Subset.antisymm (fun p hp => hstkV.2.2.2 p hp) (fun p hp => hrev p hp)
  have hin : ¬((50 : Int) < 0 ∨ (50 : Int) < 0 ∨ (frame100.width : Int) ≤ 50 ∨
      (frame100.height : Int) ≤ 50) := by decide
  have hw50 : isBaseWhiteXY frame100 50 50 = true := by
    have h := whiteAt_eq_isBaseWhiteXY frame100 50 50
    rw [whiteAt_frame100] at h
    have h2 : isBaseWhiteXY frame100 ((50 : Nat) : Int) ((50 : Nat) : Int) = true := by
      rw [← h]
      exact decide_eq_true (by norm_num)
    exact h2
  obtain ⟨hd, hv, hcnt, hbnd, ⟨hminXb, hminXa⟩, ⟨hminYb, hminYa⟩, ⟨hmaxXb, hmaxXa⟩,
    ⟨hmaxYb, hmaxYa⟩⟩ := haccV
  have hVne : V' ≠ ∅ := by
    intro he
    rw [he] at hseedV
    exact absurd hseedV (Finset.not_mem_empty _)
  have hcard : X.filledCount = 9604 := by
    rw [hcnt, hVeq, interior98_card]
  have hcount : X.filledCount ≠ 0 := by
    rw [hcard]
    norm_num
  obtain ⟨hfl2, hcnt2, hminX2, hminY2, hmaxX2, hmaxY2, hdata2⟩ :=
    floodFillOverlay_painted_parts frame100 0 50 50 fillRed hin hw50
      (by rw [hls]; exact hcount)
  rw [hls] at hcnt2 hminX2 hminY2 hmaxX2 hmaxY2 hdata2
  have hm11 : ((1 : Nat), (1 : Nat)) ∈ V' := by
    rw [hVeq]
    refine (interior98_mem _).mpr ?_
    norm_num
  have hm9898 : ((98 : Nat), (98 : Nat)) ∈ V' := by
    rw [hVeq]
    refine (interior98_mem _).mpr ?_
    norm_num
  refine ⟨hfl2, ?_, ?_, ?_, ?_, ?_, ?_⟩
  · rw [hcnt2]
    exact hcard
  · rw [hminX2]
    rcases hminXa with ⟨hVe, _⟩ | ⟨p, hp, he⟩
    · exact absurd hVe hVne
    · have hp1 : 1 ≤ p.1 := by
        rw [hVeq] at hp
        exact ((interior98_mem p).mp hp).1
      have hub : X.minX ≤ ((1 : Nat) : Int) := hminXb (1, 1) hm11
      rw [he] at hub ⊢
      omega
  · rw [hminY2]
    rcases hminYa with ⟨hVe, _⟩ | ⟨p, hp, he⟩
    · exact absurd hVe hVne
    · have hp1 : 1 ≤ p.2 := by
        rw [hVeq] at hp
        exact ((interior98_mem p).mp hp).2.2.1
      have hub : X.minY ≤ ((1 : Nat) : Int) := hminYb (1, 1) hm11
      rw [he] at hub ⊢
      omega
  · rw [hmaxX2]
    rcases hmaxXa with ⟨hVe, _⟩ | ⟨p, hp, he⟩
    · exact absurd hVe hVne
    · have hp1 : p.1 ≤ 98 := by
        rw [hVeq] at hp
        exact ((interior98_mem p).mp hp).2.1
      have hub : ((98 : Nat) : Int) ≤ X.maxX := hmaxXb (98, 98) hm9898
      rw [he] at hub ⊢
      omega
  · rw [hmaxY2]
    rcases hmaxYa with ⟨hVe, _⟩ | ⟨p, hp, he⟩
    · exact absurd hVe hVne
    · have hp1 : p.2 ≤ 98 := by
        rw [hVeq] at hp
        exact ((interior98_mem p).mp hp).2.2.2
      have hub : ((98 : Nat) : Int) ≤ X.maxY := hmaxYb (98, 98) hm9898
      rw [he] at hub ⊢
      omega
  · intro x y hx hy
    rw [hdata2]
    have hd2 : pixelHasFill X.data (getIndex 100 x y) =
        (decide ((x, y) ∈ V') || false) := hd (x, y) hx hy
    rw [hd2, hVeq]
    simp only [Bool.or_false, decide_eq_true_eq, interior98_mem]

/-! C2: re-running the fill with the same seed on the same overlay. -/

theorem AccInv_init (base : Image) (o : Nat) :
    AccInv base (fun p : Nat × Nat => pixelHasFill o (getIndex base.width p.1 p.2)) ∅
      ⟨o, 0, 0, (base.width : Int), (base.height : Int), -1, -1⟩ := by
  refine ⟨?_, ?_, ?_, ?_, ⟨?_, ?_⟩, ⟨?_, ?_⟩, ⟨?_, ?_⟩, ⟨?_, ?_⟩⟩
  · intro p _ _
    simp
  · intro p _ _
    show Nat.testBit 0 _ = _
    rw [Nat.zero_testBit]
    simp
  · simp
  · intro p hp
    exact absurd hp (Finset.not_mem_empty p)
  · intro p hp
    exact absurd hp (Finset.not_mem_empty p)
  · exact Or.inl ⟨rfl, rfl⟩
  · intro p hp
    exact absurd hp (Finset.not_mem_empty p)
  · exact Or.inl ⟨rfl, rfl⟩
  · intro p hp
    exact absurd hp (Finset.not_mem_empty p)
  · exact Or.inl ⟨rfl, rfl⟩
  · intro p hp
    exact absurd hp (Finset.not_mem_empty p)
  · exact Or.inl ⟨rfl, rfl⟩

theorem fillSpan_stop (base : Image) (c : RGBA) (y i : Nat) (a : FillAcc)
    (h : (decide (i < base.width) && scanCond base a.data a.visited y i) = false) :
    ∀ fuel, fillSpan base c y fuel i a = (a, i) := by
  intro fuel
  cases fuel with
  | zero => rw [fillSpan]
  | succ fuel => rw [fillSpan, if_neg (by rw [h]; exact Bool.false_ne_true)]

theorem floodFillOverlay_filled_conditions (base : Image) (o : Nat) (sx sy : Int)
    (c : RGBA) (hfill : (floodFillOverlay base o sx sy c).filled = true) :
    ¬(sx < 0 ∨ sy < 0 ∨ (base.width : Int) ≤ sx ∨ (base.height : Int) ≤ sy) ∧
    isBaseWhiteXY base sx sy = true ∧
    (fillLoop base c (2 * base.width * base.height + 1) [(sx.toNat, sy.toNat)]
      ⟨o, 0, 0, (base.width : Int), (base.height : Int), -1, -1⟩).filledCount ≠ 0 ∧
    (floodFillOverlay base o sx sy c).data =
      (fillLoop base c (2 * base.width * base.height + 1) [(sx.toNat, sy.toNat)]
        ⟨o, 0, 0, (base.width : Int), (base.height : Int), -1, -1⟩).data := by
  by_cases h1 : sx < 0 ∨ sy < 0 ∨ (base.width : Int) ≤ sx ∨ (base.height : Int) ≤ sy
  · rw [floodFillOverlay, if_pos h1] at hfill
    simp at hfill
  by_cases h2 : isBaseWhiteXY base sx sy = true
  · by_cases h3 : (fillLoop base c (2 * base.width * base.height + 1)
        [(sx.toNat, sy.toNat)]
        ⟨o, 0, 0, (base.width : Int), (base.height : Int), -1, -1⟩).filledCount = 0
    · rw [floodFillOverlay, if_neg h1, if_neg (by rw [h2]; simp)] at hfill
      dsimp only at hfill
      rw [if_pos h3] at hfill
      simp at hfill
    · refine ⟨h1, h2, h3, ?_⟩
      rw [floodFillOverlay_of_painted base o sx sy c h1 h2 h3]
  · have h2f : isBaseWhiteXY base sx sy = false := by
      cases h : isBaseWhiteXY base sx sy
      · rfl
      · exact absurd h h2
    rw [floodFillOverlay, if_neg h1, if_pos (by rw [h2f]; rfl)] at hfill
    simp at hfill

theorem floodFillOverlay_of_unpainted (base : Image) (o : Nat) (sx sy : Int) (c : RGBA)
    (hin : ¬(sx < 0 ∨ sy < 0 ∨ (base.width : Int) ≤ sx ∨ (base.height : Int) ≤ sy))
    (hw : isBaseWhiteXY base sx sy = true)
    (hcount : (fillLoop base c (2 * base.width * base.height + 1) [(sx.toNat, sy.toNat)]
      ⟨o, 0, 0, (base.width : Int), (base.height : Int), -1, -1⟩).filledCount = 0) :
    (floodFillOverlay base o sx sy c).filled = false ∧
      (floodFillOverlay base o sx sy c).data = o := by
  rw [floodFillOverlay, if_neg hin, if_neg (by rw [hw]; simp)]
  dsimp only
  rw [if_pos hcount]
  exact ⟨rfl, rfl⟩

theorem fillLoop_call_facts (base : Image) (c : RGBA) (o : Nat) (nx ny : Nat)
    (hca : min c.a 255 ≠ 0) (hnw : nx < base.width) (hnh : ny < base.height)
    (hwhite : whiteAt base nx ny = true) :
    pixelHasFill (fillLoop base c (2 * base.width * base.height + 1) [(nx, ny)]
      ⟨o, 0, 0, (base.width : Int), (base.height : Int), -1, -1⟩).data
      (getIndex base.width nx ny) = true ∧
    (0 < nx → whiteAt base (nx - 1) ny = true →
      pixelHasFill (fillLoop base c (2 * base.width * base.height + 1) [(nx, ny)]
        ⟨o, 0, 0, (base.width : Int), (base.height : Int), -1, -1⟩).data
        (getIndex base.width (nx - 1) ny) = true) := by
  have hAcc : AccInv base (fun p : Nat × Nat => pixelHasFill o (getIndex base.width p.1 p.2)) ∅
      ⟨o, 0, 0, (base.width : Int), (base.height : Int), -1, -1⟩ := AccInv_init base o
  obtain ⟨i2, a2, heq, hile, hile2, hacc2, hrun2, hstop2⟩ :=
    fillSpan_spec base c ny (fun p : Nat × Nat => pixelHasFill o (getIndex base.width p.1 p.2))
      hca base.width (walkLeft base o 0 ny nx)
      ⟨o, 0, 0, (base.width : Int), (base.height : Int), -1, -1⟩ ∅ hAcc
      (by omega) (by have := walkLeft_le base o 0 ny nx; omega)
  have hstep : fillLoop base c (2 * base.width * base.height + 1) [(nx, ny)]
      ⟨o, 0, 0, (base.width : Int), (base.height : Int), -1, -1⟩ =
      fillLoop base c (2 * base.width * base.height)
        ((spanChildren base a2.data a2.visited ny (walkLeft base o 0 ny nx)
          (i2 - walkLeft base o 0 ny nx)).foldl (fun s p => p :: s) []) a2 := by
    rw [fillLoop]
    dsimp only
    rw [if_neg (by rw [Nat.zero_testBit, hwhite]; simp), heq]
  have hrunL : ∀ k, walkLeft base o 0 ny nx ≤ k → k < nx →
      whiteAt base k ny = true ∧ pixelHasFill o (getIndex base.width k ny) = false := by
    intro k h1 h2
    have hsc := walkLeft_run base o 0 ny nx k h1 h2
    rw [scanCond, Nat.zero_testBit] at hsc
    simp only [Bool.not_false, Bool.and_true, Bool.and_eq_true, Bool.not_eq_true'] at hsc
    exact ⟨hsc.1, hsc.2⟩
  by_cases hsf : pixelHasFill o (getIndex base.width nx ny) = true
  · constructor
    · have hd : pixelHasFill a2.data (getIndex base.width nx ny) =
          (decide ((nx, ny) ∈ (∅ : Finset (Nat × Nat)) ∪
            spanF (walkLeft base o 0 ny nx) i2 ny) ||
            pixelHasFill o (getIndex base.width nx ny)) := hacc2.1 (nx, ny) hnw hnh
      have h1 : pixelHasFill a2.data (getIndex base.width nx ny) = true := by
        rw [hd, hsf, Bool.or_true]
      rw [hstep]
      exact fillLoop_mono base c hca _ _ a2 nx ny hnw hnh h1
    · intro hx0 hw1
      by_cases hsf1 : pixelHasFill o (getIndex base.width (nx - 1) ny) = true
      · have hd : pixelHasFill a2.data (getIndex base.width (nx - 1) ny) =
            (decide ((nx - 1, ny) ∈ (∅ : Finset (Nat × Nat)) ∪
              spanF (walkLeft base o 0 ny nx) i2 ny) ||
              pixelHasFill o (getIndex base.width (nx - 1) ny)) :=
          hacc2.1 (nx - 1, ny) (by omega) hnh
        have h1 : pixelHasFill a2.data (getIndex base.width (nx - 1) ny) = true := by
          rw [hd, hsf1, Bool.or_true]
        rw [hstep]
        exact fillLoop_mono base c hca _ _ a2 (nx - 1) ny (by omega) hnh h1
      · have hsf1f : pixelHasFill o (getIndex base.width (nx - 1) ny) = false := by
          cases h : pixelHasFill o (getIndex base.width (nx - 1) ny)
          · rfl
          · exact absurd h hsf1
        have hLle : walkLeft base o 0 ny nx ≤ nx - 1 := by
          obtain ⟨m, hm⟩ : ∃ m, nx = m + 1 := ⟨nx - 1, by omega⟩
          have hcond : scanCond base o 0 ny m = true := by
            rw [scanCond, Nat.zero_testBit]
            rw [show m = nx - 1 from by omega, hw1, hsf1f]
            rfl
          have hle := walkLeft_le base o 0 ny m
          rw [hm, walkLeft, if_pos hcond]
          omega
        have hin2 : nx - 1 < i2 := by
          by_contra hcon
          push_neg at hcon
          obtain ⟨hww, hff⟩ := hrunL i2 (by omega) (by omega)
          rcases hstop2 with he | hwf | hff2 | hmm
          · omega
          · rw [hww] at hwf
            exact Bool.noConfusion hwf
          · have hff2n : pixelHasFill o (getIndex base.width i2 ny) = true := hff2
            rw [hff] at hff2n
            exact Bool.noConfusion hff2n
          · exact absurd hmm (Finset.not_mem_empty _)
        have hd : pixelHasFill a2.data (getIndex base.width (nx - 1) ny) =
            (decide ((nx - 1, ny) ∈ (∅ : Finset (Nat × Nat)) ∪
              spanF (walkLeft base o 0 ny nx) i2 ny) ||
              pixelHasFill o (getIndex base.width (nx - 1) ny)) :=
          hacc2.1 (nx - 1, ny) (by omega) hnh
        have hmem : ((nx - 1, ny) : Nat × Nat) ∈ (∅ : Finset (Nat × Nat)) ∪
            spanF (walkLeft base o 0 ny nx) i2 ny := by
          refine Finset.mem_union_right _ ?_
          rw [spanF, Finset.mem_image]
          exact ⟨nx - 1, Finset.mem_Ico.mpr ⟨hLle, hin2⟩, rfl⟩
        have h1 : pixelHasFill a2.data (getIndex base.width (nx - 1) ny) = true := by
          rw [hd, decide_eq_true hmem, Bool.true_or]
        rw [hstep]
        exact fillLoop_mono base c hca _ _ a2 (nx - 1) ny (by omega) hnh h1
  · have hsff : pixelHasFill o (getIndex base.width nx ny) = false := by
      cases h : pixelHasFill o (getIndex base.width nx ny)
      · rfl
      · exact absurd h hsf
    have hin2 : nx < i2 := by
      by_contra hcon
      push_neg at hcon
      have hww : whiteAt base i2 ny = true ∧
          pixelHasFill o (getIndex base.width i2 ny) = false := by
        rcases Nat.lt_or_ge i2 nx with hlt | hge
        · exact hrunL i2 (by omega) hlt
        · have hieq : i2 = nx := by omega
          rw [hieq]
          exact ⟨hwhite, hsff⟩
      rcases hstop2 with he | hwf | hff2 | hmm
      · omega
      · rw [hww.1] at hwf
        exact Bool.noConfusion hwf
      · have hff2n : pixelHasFill o (getIndex base.width i2 ny) = true := hff2
        rw [hww.2] at hff2n
        exact Bool.noConfusion hff2n
      · exact absurd hmm (Finset.not_mem_empty _)
    constructor
    · have hd : pixelHasFill a2.data (getIndex base.width nx ny) =
          (decide ((nx, ny) ∈ (∅ : Finset (Nat × Nat)) ∪
            spanF (walkLeft base o 0 ny nx) i2 ny) ||
            pixelHasFill o (getIndex base.width nx ny)) := hacc2.1 (nx, ny) hnw hnh
      have hmem : ((nx, ny) : Nat × Nat) ∈ (∅ : Finset (Nat × Nat)) ∪
          spanF (walkLeft base o 0 ny nx) i2 ny := by
        refine Finset.mem_union_right _ ?_
        rw [spanF, Finset.mem_image]
        exact ⟨nx, Finset.mem_Ico.mpr ⟨walkLeft_le base o 0 ny nx, hin2⟩, rfl⟩
      have h1 : pixelHasFill a2.data (getIndex base.width nx ny) = true := by
        rw [hd, decide_eq_true hmem, Bool.true_or]
      rw [hstep]
      exact fillLoop_mono base c hca _ _ a2 nx ny hnw hnh h1
    · intro hx0 hw1
      by_cases hsf1 : pixelHasFill o (getIndex base.width (nx - 1) ny) = true
      · have hd : pixelHasFill a2.data (getIndex base.width (nx - 1) ny) =
            (decide ((nx - 1, ny) ∈ (∅ : Finset (Nat × Nat)) ∪
              spanF (walkLeft base o 0 ny nx) i2 ny) ||
              pixelHasFill o (getIndex base.width (nx - 1) ny)) :=
          hacc2.1 (nx - 1, ny) (by omega) hnh
        have h1 : pixelHasFill a2.data (getIndex base.width (nx - 1) ny) = true := by
          rw [hd, hsf1, Bool.or_true]
        rw [hstep]
        exact fillLoop_mono base c hca _ _ a2 (nx - 1) ny (by omega) hnh h1
      · have hsf1f : pixelHasFill o (getIndex base.width (nx - 1) ny) = false := by
          cases h : pixelHasFill o (getIndex base.width (nx - 1) ny)
          · rfl
          · exact absurd h hsf1
        have hLle : walkLeft base o 0 ny nx ≤ nx - 1 := by
          obtain ⟨m, hm⟩ : ∃ m, nx = m + 1 := ⟨nx - 1, by omega⟩
          have hcond : scanCond base o 0 ny m = true := by
            rw [scanCond, Nat.zero_testBit]
            rw [show m = nx - 1 from by omega, hw1, hsf1f]
            rfl
          have hle := walkLeft_le base o 0 ny m
          rw [hm, walkLeft, if_pos hcond]
          omega
        have hd : pixelHasFill a2.data (getIndex base.width (nx - 1) ny) =
            (decide ((nx - 1, ny) ∈ (∅ : Finset (Nat × Nat)) ∪
              spanF (walkLeft base o 0 ny nx) i2 ny) ||
              pixelHasFill o (getIndex base.width (nx - 1) ny)) :=
          hacc2.1 (nx - 1, ny) (by omega) hnh
        have hmem : ((nx - 1, ny) : Nat × Nat) ∈ (∅ : Finset (Nat × Nat)) ∪
            spanF (walkLeft base o 0 ny nx) i2 ny := by
          refine Finset.mem_union_right _ ?_
          rw [spanF, Finset.mem_image]
          exact ⟨nx - 1, Finset.mem_Ico.mpr ⟨hLle, by omega⟩, rfl⟩
        have h1 : pixelHasFill a2.data (getIndex base.width (nx - 1) ny) = true := by
          rw [hd, decide_eq_true hmem, Bool.true_or]
        rw [hstep]
        exact fillLoop_mono base c hca _ _ a2 (nx - 1) ny (by omega) hnh h1

/-- C2 (amended): for a fill color of nonzero alpha — as at every call
site — if `floodFillOverlay` succeeded at a seed, re-running it with the
same seed on the overlay it produced is a no-op: the second call returns
`filled = false` and leaves the overlay bytes unchanged. -/
theorem floodFill_refill_noop (base : Image) (o : Nat) (sx sy : Int) (c : RGBA)
    (ha : c.a ≠ 0)
    (hfill : (floodFillOverlay base o sx sy c).filled = true) :
    (floodFillOverlay base (floodFillOverlay base o sx sy c).data sx sy c).filled =
      false ∧
    (floodFillOverlay base (floodFillOverlay base o sx sy c).data sx sy c).data =
      (floodFillOverlay base o sx sy c).data := by
  have hca : min c.a 255 ≠ 0 := by omega
  obtain ⟨hin, hw, hcnt, hdata⟩ := floodFillOverlay_filled_conditions base o sx sy c hfill
  have hin2 := hin
  push_neg at hin2
  obtain ⟨hsx0, hsy0, hsxw, hsyh⟩ := hin2
  have hnw : sx.toNat < base.width := by omega
  have hnh : sy.toNat < base.height := by omega
  have hwhN : whiteAt base sx.toNat sy.toNat = true := by
    rw [whiteAt_eq_isBaseWhiteXY, Int.toNat_of_nonneg hsx0, Int.toNat_of_nonneg hsy0]
    exact hw
  obtain ⟨hC, hD⟩ := fillLoop_call_facts base c o sx.toNat sy.toNat hca hnw hnh hwhN
  obtain ⟨F, hF⟩ : ∃ F : FillAcc, fillLoop base c (2 * base.width * base.height + 1)
      [(sx.toNat, sy.toNat)] ⟨o, 0, 0, (base.width : Int), (base.height : Int), -1, -1⟩
      = F := ⟨_, rfl⟩
  rw [hF] at hC hD hdata
  rw [hdata]
  have hwalk2 : walkLeft base F.data 0 sy.toNat sx.toNat = sx.toNat := by
    have hle := walkLeft_le base F.data 0 sy.toNat sx.toNat
    rcases Nat.lt_or_ge (walkLeft base F.data 0 sy.toNat sx.toNat) sx.toNat with hlt | hge
    · exfalso
      have hsc := walkLeft_run base F.data 0 sy.toNat sx.toNat (sx.toNat - 1)
        (by omega) (by omega)
      rw [scanCond, Nat.zero_testBit] at hsc
      simp only [Bool.not_false, Bool.and_true, Bool.and_eq_true, Bool.not_eq_true'] at hsc
      have hDm := hD (by omega) hsc.1
      exact Bool.noConfusion (hsc.2.symm.trans hDm)
    · omega
  have hstop2 : (decide (sx.toNat < base.width) &&
      scanCond base F.data 0 sy.toNat sx.toNat) = false := by
    rw [scanCond, hC]
    simp
  have hspan2 := fillSpan_stop base c sy.toNat sx.toNat
    ⟨F.data, 0, 0, (base.width : Int), (base.height : Int), -1, -1⟩ hstop2 base.width
  have hloop2 : fillLoop base c (2 * base.width * base.height + 1) [(sx.toNat, sy.toNat)]
      ⟨F.data, 0, 0, (base.width : Int), (base.height : Int), -1, -1⟩ =
      ⟨F.data, 0, 0, (base.width : Int), (base.height : Int), -1, -1⟩ := by
    rw [fillLoop]
    dsimp only
    rw [if_neg (by rw [Nat.zero_testBit, hwhN]; simp), hwalk2, hspan2]
    dsimp only
    rw [Nat.sub_self]
    exact fillLoop_nil base c _ _
  obtain ⟨hf2, hd2⟩ := floodFillOverlay_of_unpainted base F.data sx sy c hin hw
    (by rw [hloop2])
  exact ⟨hf2, hd2⟩

set_option maxRecDepth 20000 in
/-- C2 counterexample: on a 2×1 all-white raster whose overlay has alpha
5 at the seed (1,0) and alpha 0 at (0,0), filling with a zero-alpha
color succeeds (paints (0,0) with alpha 0), the seed stays
non-transparent, yet re-running the fill with the same seed on the
resulting overlay returns `filled = true` again, not `false`. -/
theorem floodFill_refill_counterexample :
    (floodFillOverlay whiteRow2 overlayC2 1 0 clearColor).filled = true ∧
    getByte (floodFillOverlay whiteRow2 overlayC2 1 0 clearColor).data
      (getIndex whiteRow2.width 1 0 + 3) ≠ 0 ∧
    (floodFillOverlay whiteRow2
      (floodFillOverlay whiteRow2 overlayC2 1 0 clearColor).data 1 0 clearColor).filled =
      true := by
  decide

set_option maxRecDepth 100000 in
theorem floodFill_refill_noop_witness :
    fillRed.a ≠ 0 ∧
    (floodFillOverlay (frameImage 4 4) 0 1 1 fillRed).filled = true ∧
    (floodFillOverlay (frameImage 4 4)
      (floodFillOverlay (frameImage 4 4) 0 1 1 fillRed).data 1 1 fillRed).filled =
      false ∧
    (floodFillOverlay (frameImage 4 4)
      (floodFillOverlay (frameImage 4 4) 0 1 1 fillRed).data 1 1 fillRed).data =
      (floodFillOverlay (frameImage 4 4) 0 1 1 fillRed).data :=
  ⟨by decide, by decide,
    (floodFill_refill_noop (frameImage 4 4) 0 1 1 fillRed (by decide) (by decide)).1,
    (floodFill_refill_noop (frameImage 4 4) 0 1 1 fillRed (by decide) (by decide)).2⟩

/-! C4: a failed fill has no side effects. -/

/-- C4: for a seed that is out of bounds or not claimable, the fill
returns `filled = false` and the overlay buffer is byte-identical before
and after the call. -/
theorem floodFill_fail_no_side_effects (base : Image) (o : Nat) (sx sy : Int) (c : RGBA)
    (h : (sx < 0 ∨ sy < 0 ∨ (base.width : Int) ≤ sx ∨ (base.height : Int) ≤ sy) ∨
      isBaseWhiteXY base sx sy = false) :
    (floodFillOverlay base o sx sy c).filled = false ∧
    (floodFillOverlay base o sx sy c).data = o := by
  by_cases h1 : sx < 0 ∨ sy < 0 ∨ (base.width : Int) ≤ sx ∨ (base.height : Int) ≤ sy
  · rw [floodFillOverlay, if_pos h1]
    exact ⟨rfl, rfl⟩
  · have h2 : isBaseWhiteXY base sx sy = false := by
      rcases h with hh | hh
      · exact absurd hh h1
      · exact hh
    rw [floodFillOverlay, if_neg h1, if_pos (by rw [h2]; rfl)]
    exact ⟨rfl, rfl⟩

theorem floodFill_fail_no_side_effects_witness :
    isBaseWhiteXY (frameImage 4 4) 0 0 = false ∧
    (floodFillOverlay (frameImage 4 4) 7 0 0 fillRed).filled = false ∧
    (floodFillOverlay (frameImage 4 4) 7 0 0 fillRed).data = 7 :=
  ⟨by decide,
    (floodFill_fail_no_side_effects (frameImage 4 4) 7 0 0 fillRed (Or.inr (by decide))).1,
    (floodFill_fail_no_side_effects (frameImage 4 4) 7 0 0 fillRed (Or.inr (by decide))).2⟩

/-! C3: the claimable predicate. -/

/-- C3 counterexample: the part_001 predicate tests exact RGB equality
with 255 and never reads alpha, so a fully transparent white pixel is
classified claimable; hence no opacity threshold `tA` (with any whiteness
threshold `tW < 255`) can make the claimed iff hold for it. -/
theorem isBaseWhite_tolerant_counterexample :
    ¬∃ tA tW : Nat, tW < 255 ∧ ∀ (base : Image) (x y : Int),
      0 ≤ x → 0 ≤ y → x < (base.width : Int) → y < (base.height : Int) →
      (isBaseWhiteXY base x y = true ↔
        (tA < getByte base.data (getIndex base.width x.toNat y.toNat + 3) ∧
         tW ≤ getByte base.data (getIndex base.width x.toNat y.toNat) ∧
         tW ≤ getByte base.data (getIndex base.width x.toNat y.toNat + 1) ∧
         tW ≤ getByte base.data (getIndex base.width x.toNat y.toNat + 2))) := by
  rintro ⟨tA, tW, htW, hall⟩
  have h := hall alphaZeroWhite 0 0 (by norm_num) (by norm_num) (by decide) (by decide)
  have htrue : isBaseWhiteXY alphaZeroWhite 0 0 = true := by decide
  have halpha : getByte alphaZeroWhite.data
      (getIndex alphaZeroWhite.width (0 : Int).toNat (0 : Int).toNat + 3) = 0 := by decide
  obtain ⟨ha, _⟩ := h.mp htrue
  rw [halpha] at ha
  omega

/-- C3 (amended): the part_002 variant of the predicate is the claimed
tolerant match, with opacity threshold 200 and whiteness threshold 250:
for in-bounds pixels it holds iff alpha exceeds 200 and R, G, B each
reach 250. -/
theorem isBaseWhiteXY2_spec (base : Image) (x y : Int)
    (hx : 0 ≤ x) (hy : 0 ≤ y) (hxw : x < (base.width : Int))
    (hyh : y < (base.height : Int)) :
    isBaseWhiteXY2 base x y = true ↔
      (200 < getByte base.data (getIndex base.width x.toNat y.toNat + 3) ∧
       250 ≤ getByte base.data (getIndex base.width x.toNat y.toNat) ∧
       250 ≤ getByte base.data (getIndex base.width x.toNat y.toNat + 1) ∧
       250 ≤ getByte base.data (getIndex base.width x.toNat y.toNat + 2)) := by
  rw [isBaseWhiteXY2, if_neg (by omega)]
  dsimp only
  simp only [Bool.and_eq_true, decide_eq_true_eq]
  tauto

theorem isBaseWhiteXY2_spec_witness :
    (0 : Int) ≤ 0 ∧ (0 : Int) < (whiteRow2.width : Int) ∧
    (isBaseWhiteXY2 whiteRow2 0 0 = true ↔
      (200 < getByte whiteRow2.data
        (getIndex whiteRow2.width (0 : Int).toNat (0 : Int).toNat + 3) ∧
       250 ≤ getByte whiteRow2.data
        (getIndex whiteRow2.width (0 : Int).toNat (0 : Int).toNat) ∧
       250 ≤ getByte whiteRow2.data
        (getIndex whiteRow2.width (0 : Int).toNat (0 : Int).toNat + 1) ∧
       250 ≤ getByte whiteRow2.data
        (getIndex whiteRow2.width (0 : Int).toNat (0 : Int).toNat + 2))) :=
  ⟨le_refl 0, by decide,
    isBaseWhiteXY2_spec whiteRow2 0 0 (by decide) (by decide) (by decide) (by decide)⟩

/-! C1: addPendingClaim on fill failure. -/

/-- C1 counterexample: on a 1×1 all-black raster the fill fails at the
click point and seed recovery returns nothing, yet `addPendingClaim`
still appends the claim record — the pending list is not unchanged. -/
theorem addPendingClaim_failure_counterexample :
    (floodFillOverlay blackDot 0 0 0 fillRed).filled = false ∧
    findNearestWhitePixel blackDot 0 0 20 = none ∧
    (addPendingClaim blackDot ⟨[], 0⟩ 0 0 "2024-01-01" none none fillRed).pendingClaims =
      [⟨0, 0, "2024-01-01", none, none⟩] := by
  decide

/-- C1 (amended): when the fill fails at the click point and also fails
at the recovered point (or recovery returns nothing), `addPendingClaim`
leaves the pending overlay untouched but still appends the claim record
to the pending list. -/
theorem addPendingClaim_failure (base : Image) (st : ClientState) (imgX imgY : Int)
    (date : String) (team color : Option String) (fillColor : RGBA)
    (h1 : (floodFillOverlay base st.tempData imgX imgY fillColor).filled = false)
    (h2 : ∀ p : Nat × Nat, findNearestWhitePixel base imgX imgY 20 = some p →
      (floodFillOverlay base st.tempData (p.1 : Int) (p.2 : Int) fillColor).filled =
        false) :
    (addPendingClaim base st imgX imgY date team color fillColor).tempData =
      st.tempData ∧
    (addPendingClaim base st imgX imgY date team color fillColor).pendingClaims =
      st.pendingClaims ++ [⟨imgX, imgY, date, team, color⟩] := by
  rw [addPendingClaim]
  dsimp only
  rw [if_neg (by rw [h1]; exact Bool.false_ne_true)]
  have hrd := floodFillOverlay_data_of_not_filled base st.tempData imgX imgY fillColor h1
  cases hr : findNearestWhitePixel base imgX imgY 20 with
  | none => exact ⟨hrd, rfl⟩
  | some p =>
    refine ⟨?_, rfl⟩
    have hf2 : (floodFillOverlay base
        (floodFillOverlay base st.tempData imgX imgY fillColor).data
        (p.1 : Int) (p.2 : Int) fillColor).filled = false := by
      rw [hrd]
      exact h2 p hr
    have h3 := floodFillOverlay_data_of_not_filled base
      (floodFillOverlay base st.tempData imgX imgY fillColor).data
      (p.1 : Int) (p.2 : Int) fillColor hf2
    exact h3.trans hrd

theorem addPendingClaim_failure_witness :
    (addPendingClaim blackDot ⟨[], 7⟩ 0 0 "2024-01-01" none none fillRed).tempData = 7 ∧
    (addPendingClaim blackDot ⟨[], 7⟩ 0 0 "2024-01-01" none none fillRed).pendingClaims =
      [⟨0, 0, "2024-01-01", none, none⟩] :=
  ⟨(addPendingClaim_failure blackDot ⟨[], 7⟩ 0 0 "2024-01-01" none none fillRed
      (by decide)
      (fun p hp => Option.noConfusion
        (((by decide : findNearestWhitePixel blackDot 0 0 20 = none)).symm.trans hp))).1,
   (addPendingClaim_failure blackDot ⟨[], 7⟩ 0 0 "2024-01-01" none none fillRed
      (by decide)
      (fun p hp => Option.noConfusion
        (((by decide : findNearestWhitePixel blackDot 0 0 20 = none)).symm.trans hp))).2⟩

/-! C7 and C10: the seed-recovery BFS. -/

theorem bfsLoop_sound (base : Image) (sx sy maxDist2 : Nat) :
    ∀ fuel visited queue p, bfsLoop base sx sy maxDist2 fuel visited queue = some p →
      whiteAt base p.1 p.2 = true ∧
      ((p.1 : Int) - (sx : Int)) * ((p.1 : Int) - (sx : Int)) +
        ((p.2 : Int) - (sy : Int)) * ((p.2 : Int) - (sy : Int)) ≤ (maxDist2 : Int) := by
  intro fuel
  induction fuel with
  | zero =>
    intro visited queue p h
    rw [bfsLoop] at h
    exact Option.noConfusion h
  | succ fuel ih =>
    intro visited queue p h
    cases queue with
    | nil =>
      rw [bfsLoop] at h
      exact Option.noConfusion h
    | cons q rest =>
      obtain ⟨px, py⟩ := q
      rw [bfsLoop] at h
      dsimp only at h
      by_cases hfar : (maxDist2 : Int) <
          ((px : Int) - (sx : Int)) * ((px : Int) - (sx : Int)) +
          ((py : Int) - (sy : Int)) * ((py : Int) - (sy : Int))
      · rw [if_pos hfar] at h
        exact ih visited rest p h
      · rw [if_neg hfar] at h
        by_cases hwp : whiteAt base px py = true
        · rw [if_pos hwp] at h
          have hpe : (px, py) = p := Option.some.inj h
          subst hpe
          exact ⟨hwp, Int.not_lt.mp hfar⟩
        · rw [if_neg hwp] at h
          rcases hb : bfsNeighbors base px py visited with ⟨v2, fresh⟩
          rw [hb] at h
          exact ih v2 (rest ++ fresh) p h

/-- C7: when `findNearestWhitePixel` returns a point, that point is
claimable and its squared Euclidean distance from the query point is at
most `maxRadius²` (so a returned point never lies farther than
`maxRadius`, and a `some` answer exhibits a claimable pixel within the
radius). -/
theorem findNearest_sound (base : Image) (sx sy : Int) (maxRadius : Nat) (p : Nat × Nat)
    (h : findNearestWhitePixel base sx sy maxRadius = some p) :
    isBaseWhiteXY base (p.1 : Int) (p.2 : Int) = true ∧
    ((p.1 : Int) - sx) * ((p.1 : Int) - sx) + ((p.2 : Int) - sy) * ((p.2 : Int) - sy) ≤
      (maxRadius : Int) * (maxRadius : Int) := by
  rw [findNearestWhitePixel] at h
  by_cases h1 : sx < 0 ∨ sy < 0 ∨ (base.width : Int) ≤ sx ∨ (base.height : Int) ≤ sy
  · rw [if_pos h1] at h
    exact Option.noConfusion h
  · rw [if_neg h1] at h
    have hin2 := h1
    push_neg at hin2
    obtain ⟨hsx0, hsy0, _, _⟩ := hin2
    have hs := bfsLoop_sound base sx.toNat sy.toNat (maxRadius * maxRadius) _ _ _ p h
    refine ⟨?_, ?_⟩
    · rw [← whiteAt_eq_isBaseWhiteXY]
      exact hs.1
    · have h2 := hs.2
      rw [Int.toNat_of_nonneg hsx0, Int.toNat_of_nonneg hsy0, Nat.cast_mul] at h2
      exact h2

theorem findNearest_sound_witness :
    findNearestWhitePixel (frameImage 4 4) 0 0 5 = some (1, 1) ∧
    (isBaseWhiteXY (frameImage 4 4) 1 1 = true ∧
      ((1 : Int) - 0) * ((1 : Int) - 0) + ((1 : Int) - 0) * ((1 : Int) - 0) ≤
        (5 : Int) * (5 : Int)) :=
  ⟨by decide, findNearest_sound (frameImage 4 4) 0 0 5 (1, 1) (by decide)⟩

/-- C10: an in-bounds claimable query point is returned itself — the BFS
pops the query point first, its distance 0 passes the radius test for
every radius, and it is white, so the loop returns it immediately. -/
theorem findNearest_self (base : Image) (sx sy : Int) (maxRadius : Nat)
    (hin : ¬(sx < 0 ∨ sy < 0 ∨ (base.width : Int) ≤ sx ∨ (base.height : Int) ≤ sy))
    (hw : isBaseWhiteXY base sx sy = true) :
    findNearestWhitePixel base sx sy maxRadius = some (sx.toNat, sy.toNat) := by
  have hin2 := hin
  push_neg at hin2
  obtain ⟨hsx0, hsy0, _, _⟩ := hin2
  have hwN : whiteAt base sx.toNat sy.toNat = true := by
    rw [whiteAt_eq_isBaseWhiteXY, Int.toNat_of_nonneg hsx0, Int.toNat_of_nonneg hsy0]
    exact hw
  have hfar : ¬((maxRadius * maxRadius : Nat) : Int) <
      ((sx.toNat : Int) - (sx.toNat : Int)) * ((sx.toNat : Int) - (sx.toNat : Int)) +
      ((sy.toNat : Int) - (sy.toNat : Int)) * ((sy.toNat : Int) - (sy.toNat : Int)) := by
    rw [sub_self, mul_zero, sub_self, mul_zero, add_zero]
    exact not_lt.mpr (Int.natCast_nonneg _)
  rw [findNearestWhitePixel, if_neg hin, bfsLoop]
  dsimp only
  rw [if_neg hfar, if_pos hwN]

theorem findNearest_self_witness :
    ¬((1 : Int) < 0 ∨ (1 : Int) < 0 ∨ ((frameImage 4 4).width : Int) ≤ 1 ∨
      ((frameImage 4 4).height : Int) ≤ 1) ∧
    isBaseWhiteXY (frameImage 4 4) 1 1 = true ∧
    findNearestWhitePixel (frameImage 4 4) 1 1 0 =
      some ((1 : Int).toNat, (1 : Int).toNat) :=
  ⟨by decide, by decide, findNearest_self (frameImage 4 4) 1 1 0 (by decide) (by decide)⟩

/-! C9: the background poll and the repaint gate. -/

/-- C9 counterexample: with one recorded claim and a fetch returning a
single claim of a different id, the id-sets differ (the repaint gate
would fire) yet the poll's count test sees an unchanged length and does
not trigger the reload at all. -/
theorem pollTick_counterexample :
    (pollTick 1 [⟨2, 0, 0, none, none⟩]).2 = false ∧
    claimIdSet [⟨2, 0, 0, none, none⟩] ≠ ({1} : Finset Nat) ∧
    idsChanged [⟨2, 0, 0, none, none⟩] ({1} : Finset Nat) = true := by
  refine ⟨?_, ?_, ?_⟩ <;> decide

/-- C9 (amended): the poll triggers the reload iff the fetched claim
count differs from the recorded count (an id-set change that preserves
the count triggers nothing); the repaint gate inside a reload is the
id-set test: the overlay repaint is skipped iff the fetched id-set
equals the last rendered one. -/
theorem pollTick_spec (lastClaimCount : Nat) (claims : List SavedClaim)
    (rendered : Finset Nat) :
    ((pollTick lastClaimCount claims).2 = true ↔ claims.length ≠ lastClaimCount) ∧
    (idsChanged claims rendered = false ↔ claimIdSet claims = rendered) := by
  constructor
  · rw [pollTick]
    by_cases h : claims.length ≠ lastClaimCount
    · rw [if_pos h]
      simpa using h
    · rw [if_neg h]
      simpa using h
  · rw [idsChanged]
    rw [Bool.or_eq_false_iff]
    constructor
    · rintro ⟨h1, h2⟩
      rw [decide_eq_false_iff_not] at h1
      push_neg at h1
      rw [Bool.not_eq_false'] at h2
      rw [decide_eq_true_eq] at h2
      exact Finset.eq_of_subset_of_card_le h2 (le_of_eq h1.symm)
    · rintro rfl
      constructor
      · rw [decide_eq_false_iff_not]
        exact fun hne => hne rfl
      · rw [Bool.not_eq_false']
        exact decide_eq_true (Finset.Subset.refl _)

/-! C8: insert failure aborts the confirm. -/

/-- C8: when the bulk-insert step fails, the confirm aborts and returns
the client state unchanged: the pending claim list and the pending
overlay buffer are exactly as before, so the user can retry. -/
theorem confirm_insert_fail_preserves (st : ClientState) (tempW tempH : Nat)
    (store : List SavedClaim) (fetchOk deleteOk : Bool) (nextId : Nat)
    (hne : st.pendingClaims.filter (fun c => c.team ≠ some emptyTeamTag) ≠ []) :
    (confirmPendingClaims st tempW tempH store fetchOk deleteOk false nextId).1 = st := by
  have hp : st.pendingClaims ≠ [] := by
    intro he
    rw [he] at hne
    exact hne rfl
  have hbe : st.pendingClaims.isEmpty = false := by
    cases hl : st.pendingClaims with
    | nil => exact absurd hl hp
    | cons a l => rfl
  have hbe2 : (st.pendingClaims.filter (fun c => c.team ≠ some emptyTeamTag)).isEmpty =
      false := by
    cases hl : st.pendingClaims.filter (fun c => c.team ≠ some emptyTeamTag) with
    | nil => exact absurd hl hne
    | cons a l => rfl
  rw [confirmPendingClaims]
  rw [if_neg (by rw [hbe]; exact Bool.false_ne_true)]
  dsimp only
  rw [if_neg (by rw [hbe2]; exact Bool.false_ne_true)]
  rfl

theorem confirm_insert_fail_preserves_witness :
    (⟨[⟨3, 4, "2024-01-02", some "red", none⟩], 9⟩ : ClientState).pendingClaims.filter
      (fun c => c.team ≠ some emptyTeamTag) ≠ [] ∧
    (confirmPendingClaims ⟨[⟨3, 4, "2024-01-02", some "red", none⟩], 9⟩ 1 1 [] true true
      false 5).1 = ⟨[⟨3, 4, "2024-01-02", some "red", none⟩], 9⟩ :=
  ⟨by decide, confirm_insert_fail_preserves ⟨[⟨3, 4, "2024-01-02", some "red", none⟩], 9⟩
    1 1 [] true true 5 (by decide)⟩

/-! C6: the reconciliation's overlap marking. -/

theorem overlapSeedCovered_iff (tempW tempH tempData : Nat) (c : SavedClaim) :
    overlapSeedCovered tempW tempH tempData c = true ↔
      overlayAlphaAt tempW tempH tempData c.x c.y ≠ 0 := by
  rw [overlapSeedCovered, overlayAlphaAt]
  by_cases h : c.x < 0 ∨ c.y < 0 ∨ (tempW : Int) ≤ c.x ∨ (tempH : Int) ≤ c.y
  · rw [if_pos h, if_pos h]
    simp
  · rw [if_neg h, if_neg h]
    simp [bne_iff_ne]

theorem idsToDelete_mem (existing : List SavedClaim) (tempW tempH tempData : Nat)
    (i : Nat) :
    i ∈ idsToDelete existing tempW tempH tempData ↔
      ∃ c ∈ existing, overlapSeedCovered tempW tempH tempData c = true ∧ c.id = i := by
  rw [idsToDelete]
  simp only [List.mem_map, List.mem_filter]
  constructor
  · rintro ⟨a, ⟨h1, h2⟩, h3⟩
    exact ⟨a, h1, h2, h3⟩
  · rintro ⟨a, h1, h2, h3⟩
    exact ⟨a, ⟨h1, h2⟩, h3⟩

theorem mem_store2 (store : List SavedClaim) (ids : List Nat) (c : SavedClaim)
    (hc : c ∈ store) (hid : c.id ∉ ids) (deleteOk : Bool) :
    c ∈ (if ids.isEmpty = true then store
      else if deleteOk = true then deleteClaims store ids else store) := by
  split
  · exact hc
  split
  · rw [deleteClaims, List.mem_filter]
    refine ⟨hc, ?_⟩
    cases hco : ids.contains c.id
    · rfl
    · exact absurd (List.mem_of_elem_eq_true hco) hid
  · exact hc

/-- C6: with a successfully fetched store of distinct ids, a saved
claim's id is marked for deletion iff the pending overlay's alpha at the
claim's stored seed coordinate is nonzero; and a claim whose seed is not
covered survives the confirm for every combination of outcome flags. -/
theorem confirm_marks_iff (st : ClientState) (tempW tempH : Nat)
    (store : List SavedClaim) (c : SavedClaim) (hc : c ∈ store)
    (hnd : (store.map (fun r => r.id)).Nodup) :
    (c.id ∈ idsToDelete store tempW tempH st.tempData ↔
      overlayAlphaAt tempW tempH st.tempData c.x c.y ≠ 0) ∧
    (overlayAlphaAt tempW tempH st.tempData c.x c.y = 0 →
      ∀ fetchOk deleteOk insertOk nextId,
        c ∈ (confirmPendingClaims st tempW tempH store fetchOk deleteOk insertOk
          nextId).2) := by
  have hiff : c.id ∈ idsToDelete store tempW tempH st.tempData ↔
      overlayAlphaAt tempW tempH st.tempData c.x c.y ≠ 0 := by
    rw [idsToDelete_mem]
    constructor
    · rintro ⟨c2, hc2, hcov, hid⟩
      have he : c2 = c := List.inj_on_of_nodup_map hnd hc2 hc hid
      subst he
      exact (overlapSeedCovered_iff tempW tempH st.tempData c2).mp hcov
    · intro halpha
      exact ⟨c, hc, (overlapSeedCovered_iff tempW tempH st.tempData c).mpr halpha, rfl⟩
  refine ⟨hiff, ?_⟩
  intro halpha fetchOk deleteOk insertOk nextId
  have hnotid : c.id ∉ idsToDelete store tempW tempH st.tempData :=
    fun hmem => (hiff.mp hmem) halpha
  have hni : c.id ∉ idsToDelete (if fetchOk = true then store else [])
      tempW tempH st.tempData := by
    cases fetchOk
    · rw [idsToDelete_mem]
      rintro ⟨c2, hc2, _, _⟩
      exact absurd hc2 (List.not_mem_nil c2)
    · exact hnotid
  rw [confirmPendingClaims]
  by_cases hbe : st.pendingClaims.isEmpty = true
  · rw [if_pos hbe]
    exact hc
  · rw [if_neg hbe]
    dsimp only
    by_cases hne2 : (st.pendingClaims.filter
        (fun c => c.team ≠ some emptyTeamTag)).isEmpty = true
    · rw [if_pos hne2]
      exact mem_store2 store _ c hc hni deleteOk
    · rw [if_neg hne2]
      cases insertOk with
      | false => exact mem_store2 store _ c hc hni deleteOk
      | true => exact List.mem_append_left _ (mem_store2 store _ c hc hni deleteOk)

theorem confirm_marks_iff_witness :
    (⟨1, 0, 0, none, none⟩ : SavedClaim) ∈ [(⟨1, 0, 0, none, none⟩ : SavedClaim)] ∧
    ((⟨1, 0, 0, none, none⟩ : SavedClaim).id ∈
        idsToDelete [⟨1, 0, 0, none, none⟩] 1 1 0 ↔
      overlayAlphaAt 1 1 0 (⟨1, 0, 0, none, none⟩ : SavedClaim).x
        (⟨1, 0, 0, none, none⟩ : SavedClaim).y ≠ 0) ∧
    (⟨1, 0, 0, none, none⟩ : SavedClaim) ∈
      (confirmPendingClaims ⟨[⟨0, 0, "d", none, none⟩], 0⟩ 1 1
        [⟨1, 0, 0, none, none⟩] true true true 5).2 :=
  ⟨by decide,
   (confirm_marks_iff ⟨[⟨0, 0, "d", none, none⟩], 0⟩ 1 1 [⟨1, 0, 0, none, none⟩]
      ⟨1, 0, 0, none, none⟩ (by decide) (by decide)).1,
   (confirm_marks_iff ⟨[⟨0, 0, "d", none, none⟩], 0⟩ 1 1 [⟨1, 0, 0, none, none⟩]
      ⟨1, 0, 0, none, none⟩ (by decide) (by decide)).2 (by decide) true true true 5⟩

end TEM
